import Mathlib

/-!
Verification of the Aurora Beauty Decision System's identity-resolution and
evidence-merge engine.  The Python source is shallowly embedded: strings are
Lean `String`s manipulated through their underlying character lists, machine
floats appearing only in clamp/min/max/compare positions are modelled as `ℚ`,
and the relational store is modelled as explicit in-memory tables threaded
through the ingestion loop.  Unicode NFKC/NFKD normalization is the identity
on the ASCII and Latin-1 texts manipulated here; `deaccentChar` implements the
NFKD-decompose-and-drop-combining-marks step for the Latin-1 letters the data
contains, and `lcChar` implements `str.lower` / `str.casefold` (which agree on
these characters).
-/

/-! ## Character and string primitives shared by all components -/

/-- Whitespace recognised by Python's `str.strip` / `\s` on the ASCII range. -/
def isWsChar (c : Char) : Bool :=
  c = ' ' ∨ c = '\t' ∨ c = '\n' ∨ c = '\r' ∨ c = '\x0b' ∨ c = '\x0c'

/-- `str.lower` / `str.casefold`, which agree on ASCII and Latin-1 letters. -/
def lcChar (c : Char) : Char :=
  if 'A' ≤ c ∧ c ≤ 'Z' then Char.ofNat (c.toNat + 32) else c

/-- NFKD decomposition followed by dropping combining marks, per character,
for the Latin-1 letters occurring in the data; identity elsewhere. -/
def deaccentChar (c : Char) : Char :=
  if c = 'á' ∨ c = 'à' ∨ c = 'â' ∨ c = 'ä' ∨ c = 'ã' ∨ c = 'å' then 'a'
  else if c = 'é' ∨ c = 'è' ∨ c = 'ê' ∨ c = 'ë' then 'e'
  else if c = 'í' ∨ c = 'ì' ∨ c = 'î' ∨ c = 'ï' then 'i'
  else if c = 'ó' ∨ c = 'ò' ∨ c = 'ô' ∨ c = 'ö' ∨ c = 'õ' then 'o'
  else if c = 'ú' ∨ c = 'ù' ∨ c = 'û' ∨ c = 'ü' then 'u'
  else if c = 'ý' ∨ c = 'ÿ' then 'y'
  else if c = 'ç' then 'c'
  else if c = 'ñ' then 'n'
  else if c = 'Á' ∨ c = 'À' ∨ c = 'Â' ∨ c = 'Ä' ∨ c = 'Ã' ∨ c = 'Å' then 'A'
  else if c = 'É' ∨ c = 'È' ∨ c = 'Ê' ∨ c = 'Ë' then 'E'
  else if c = 'Í' ∨ c = 'Ì' ∨ c = 'Î' ∨ c = 'Ï' then 'I'
  else if c = 'Ó' ∨ c = 'Ò' ∨ c = 'Ô' ∨ c = 'Ö' ∨ c = 'Õ' then 'O'
  else if c = 'Ú' ∨ c = 'Ù' ∨ c = 'Û' ∨ c = 'Ü' then 'U'
  else if c = 'Ý' then 'Y'
  else if c = 'Ç' then 'C'
  else if c = 'Ñ' then 'N'
  else c

/-- Leading-whitespace removal on character lists. -/
def stripLeadL (l : List Char) : List Char := l.dropWhile isWsChar

/-- Python `str.strip`: drop leading and trailing whitespace. -/
def pyStripL (l : List Char) : List Char :=
  ((stripLeadL l).reverse.dropWhile isWsChar).reverse

/-- Python `str.strip` on strings. -/
def pyStrip (s : String) : String := ⟨pyStripL s.data⟩

/-- Python `str.lower` on the texts considered here. -/
def pyLower (s : String) : String := ⟨s.data.map lcChar⟩

/-- `l1` is a prefix of `l2` (Boolean). -/
def listIsPref : List Char → List Char → Bool
  | [], _ => true
  | _ :: _, [] => false
  | a :: as, b :: bs => a = b && listIsPref as bs

/-- Does `hay` contain `needle` as a contiguous sublist?  Matches Python's
`needle in hay` on strings. -/
def containsSubL (needle : List Char) : List Char → Bool
  | [] => listIsPref needle []
  | c :: rest => listIsPref needle (c :: rest) || containsSubL needle rest

/-- Python's `needle in hay` substring test. -/
def containsSub (hay needle : String) : Bool := containsSubL needle.data hay.data

/-- Split a character list on a separator character, keeping empty pieces,
like Python's `str.split(sep)` for a one-character separator. -/
def splitOnCharL (sep : Char) : List Char → List (List Char)
  | [] => [[]]
  | c :: rest =>
    let tails := splitOnCharL sep rest
    if c = sep then [] :: tails
    else match tails with
      | [] => [[c]]
      | t :: ts => (c :: t) :: ts

/-- Python `text.split(sep)` for a one-character separator. -/
def pySplitOn (s : String) (sep : Char) : List String :=
  (splitOnCharL sep s.data).map fun l => ⟨l⟩

/-- First-occurrence-preserving deduplication, i.e. `dict.fromkeys`. -/
def pyDedupAux (seen : List String) : List String → List String
  | [] => []
  | x :: xs =>
    if seen.contains x then pyDedupAux seen xs
    else x :: pyDedupAux (seen ++ [x]) xs

/-- Python `list(dict.fromkeys(l))`. -/
def pyDedup (l : List String) : List String := pyDedupAux [] l

/-! ## SafetyClassifier — `src/worker/ingest.py` -/

/-- `parse_ingredients_list`: split on commas, strip, drop empties. -/
def parse_ingredients_list (text : String) : List String :=
  ((pySplitOn text ',').map pyStrip).filter (fun t => t ≠ "")

/-- `_looks_like_wash_off_product`: wash-off lexicon substring match on the
lower-cased product name. -/
def looks_like_wash_off_product (name : String) : Bool :=
  let n := pyLower name
  ["cleanser", "cleansing", "face wash", "facial wash", "wash", "soap",
   "foaming", "foam", "gel cleanser", "body wash"].any fun k => containsSub n k

/-- `_has_any(haystack, needles)` from `infer_risk_flags_from_ingredients`:
some token contains some needle. -/
def hasAnyNeedle (haystack needles : List String) : Bool :=
  haystack.any fun token => needles.any fun n => containsSub token n

def alcohol_terms : List String :=
  ["alcohol denat", "alcohol denat.", "denatured alcohol", "sd alcohol", "ethyl alcohol"]

def retinoid_terms : List String :=
  ["retinol", "retinal", "retinaldehyde", "tretinoin", "adapalene", "tazarotene",
   "retinoate", "hydroxypinacolone retinoate"]

def strong_acid_terms : List String :=
  ["salicylic acid", "capryloyl salicylic acid", "betaine salicylate",
   "glycolic acid", "lactic acid"]

def mild_acid_terms : List String :=
  ["azelaic acid", "mandelic acid", "gluconolactone", "lactobionic acid", "pha"]

def fragrance_markers : List String := ["fragrance", "parfum", "perfume"]

def fragrance_allergens : List String :=
  ["limonene", "linalool", "citral", "geraniol", "eugenol", "coumarin",
   "farnesol", "benzyl benzoate", "benzyl salicylate"]

def mint_terms : List String := ["menthol", "peppermint", "mentha", "camphor", "eucalyptus"]

/-- The comma-split, lower-cased ingredient tokens used by the deterministic
risk pass (NFKC is the identity on these ASCII texts). -/
def riskItems (ingredients_text : String) : List String :=
  (parse_ingredients_list (pyLower ingredients_text)).map pyLower

/-- Strong-acid evidence: listed strong acids/BHA within the top-10 window. -/
def hasStrongAcid (ingredients_text : String) : Bool :=
  hasAnyNeedle ((riskItems ingredients_text).take 10) strong_acid_terms

/-- Retinoid evidence anywhere in the ingredient list. -/
def hasRetinoid (ingredients_text : String) : Bool :=
  hasAnyNeedle (riskItems ingredients_text) retinoid_terms

/-- The sequential flag-appending block of `infer_risk_flags_from_ingredients`,
with each conditional `append` rendered as a guarded singleton, in source
order. -/
def riskFlagsRaw (ingredients_text : String) : List String :=
  let items := riskItems ingredients_text
  let top5 := items.take 5
  let has_alcohol_high := hasAnyNeedle top5 alcohol_terms
  let has_retinoid := hasAnyNeedle items retinoid_terms
  let has_strong_acid := hasStrongAcid ingredients_text
  let has_mild_acid := hasAnyNeedle items mild_acid_terms
  let has_benzoyl_peroxide := hasAnyNeedle items ["benzoyl peroxide"]
  let has_polysorbate := hasAnyNeedle items ["polysorbate"]
  let has_fragrance := hasAnyNeedle items fragrance_markers || hasAnyNeedle items fragrance_allergens
  let has_mint := hasAnyNeedle items mint_terms
  (if has_alcohol_high then ["alcohol_high"] else []) ++
  (if has_polysorbate then ["fungal_acne"] else []) ++
  (if has_fragrance then ["fragrance"] else []) ++
  (if has_mint then ["mint"] else []) ++
  (if has_retinoid then ["retinol_high"] else []) ++
  (if has_benzoyl_peroxide then ["benzoyl_peroxide"] else []) ++
  (if has_strong_acid then ["strong_acid"] else []) ++
  (if has_mild_acid && !has_strong_acid then ["mild_acid"] else []) ++
  (if has_retinoid || has_strong_acid || has_benzoyl_peroxide then ["high_irritation"] else [])

/-- The fixed canonical ordering of the controlled vocabulary. -/
def riskFlagOrder : List String :=
  ["alcohol_high", "strong_acid", "mild_acid", "retinol_high", "benzoyl_peroxide",
   "high_irritation", "fragrance", "mint", "fungal_acne"]

/-- The trailing `for f in flags: if f not in stable: stable.append(f)` loop. -/
def appendMissing (stable : List String) : List String → List String
  | [] => stable
  | f :: rest =>
    if stable.contains f then appendMissing stable rest
    else appendMissing (stable ++ [f]) rest

/-- `infer_risk_flags_from_ingredients` (the `product_name` argument is unused
by the source function's body). -/
def infer_risk_flags_from_ingredients (product_name ingredients_text : String) : List String :=
  let flags := riskFlagsRaw ingredients_text
  let stable := riskFlagOrder.filter fun f => flags.contains f
  appendMissing stable flags

/-- Helper for `re.sub(r"[\s\-]+", "_", s)`: `inRun` records whether the
previous character was part of a whitespace/hyphen run already replaced. -/
def collapseWsHyphenAux (inRun : Bool) : List Char → List Char
  | [] => []
  | c :: rest =>
    if isWsChar c ∨ c = '-' then
      (if inRun then [] else ['_']) ++ collapseWsHyphenAux true rest
    else c :: collapseWsHyphenAux false rest

/-- Runs of whitespace or hyphens collapse to a single underscore:
`re.sub(r"[\s\-]+", "_", s)`. -/
def collapseWsHyphen (l : List Char) : List Char := collapseWsHyphenAux false l

/-- Characters kept by `re.sub(r"[^a-z0-9_]+", "", s)`. -/
def isFlagChar (c : Char) : Bool :=
  ('a' ≤ c ∧ c ≤ 'z') ∨ ('0' ≤ c ∧ c ≤ '9') ∨ c = '_'

/-- `_norm_flag` from `postprocess_risk_flags`: NFKC (identity here), strip,
lower, collapse whitespace/hyphen runs to `_`, drop other punctuation. -/
def norm_flag (flag : String) : String :=
  ⟨(collapseWsHyphen ((pyStripL flag.data).map lcChar)).filter isFlagChar⟩

/-- The controlled-vocabulary allow-list of `postprocess_risk_flags`. -/
def riskFlagAllowlist : List String :=
  ["alcohol_high", "strong_acid", "mild_acid", "retinol_high", "benzoyl_peroxide",
   "high_irritation", "fungal_acne", "fragrance", "mint"]

/-- The synonym table mapping over-broad hints to strict tokens. -/
def riskFlagSynonyms : List (String × String) :=
  [("alcohol", "alcohol_high"), ("high_alcohol", "alcohol_high"),
   ("acid", "strong_acid"), ("aha", "strong_acid"), ("bha", "strong_acid"),
   ("retinol", "retinol_high"), ("retinoid", "retinol_high")]

/-- `synonym_map.get(f, f)`. -/
def applySynonym (f : String) : String := ((riskFlagSynonyms.lookup f).getD f)

/-- The tuple of flags that must be backed by deterministic evidence. -/
def evidenceGated : List String :=
  ["high_irritation", "strong_acid", "mild_acid", "retinol_high", "benzoyl_peroxide",
   "alcohol_high", "fungal_acne", "fragrance", "mint"]

/-- The hint-cleaning loop of `postprocess_risk_flags`. -/
def cleanHintFlags (det : List String) : List String → List String
  | [] => []
  | raw :: rest =>
    let f := norm_flag raw
    if f = "" then cleanHintFlags det rest
    else
      let g := applySynonym f
      if ¬ (riskFlagAllowlist.contains g) then cleanHintFlags det rest
      else if evidenceGated.contains g ∧ ¬ (det.contains g) then cleanHintFlags det rest
      else g :: cleanHintFlags det rest

/-- `postprocess_risk_flags`: reconcile untrusted hint flags with the
deterministic pass, then `list(dict.fromkeys(deterministic + cleaned))`. -/
def postprocess_risk_flags (llm_flags : List String) (product_name ingredients_text : String) :
    List String :=
  let deterministic := infer_risk_flags_from_ingredients product_name ingredients_text
  let cleaned := cleanHintFlags deterministic llm_flags
  pyDedup (deterministic ++ cleaned)

/-- Exact rational addition through `mkRat`, kept kernel-evaluable (the
library addition on `ℚ` is irreducible); provably equal to `+`. -/
def qadd (a b : ℚ) : ℚ := mkRat (a.num * b.den + b.num * a.den) (a.den * b.den)

/-- Python `min` on two rationals, kept kernel-evaluable. -/
def qmin (a b : ℚ) : ℚ := if a ≤ b then a else b

/-- Python `max` on two rationals, kept kernel-evaluable. -/
def qmax (a b : ℚ) : ℚ := if a ≤ b then b else a

/-- `_clamp_float` on an in-range rational input. -/
def clampQ (value lo hi : ℚ) : ℚ :=
  if value < lo then lo else if hi < value then hi else value

/-- `calibrate_burn_rate`: reconcile a suggested burn rate with the
deterministic risk flags and the wash-off lexicon.  Float constants and
comparisons are modelled exactly over `ℚ`. -/
def calibrate_burn_rate (burn_rate : ℚ) (risk_flags : List String) (product_name : String) : ℚ :=
  let br := clampQ burn_rate 0 1
  let wash_off := looks_like_wash_off_product product_name
  let has_strong :=
    ["strong_acid", "retinol_high", "benzoyl_peroxide", "high_irritation"].any
      fun f => risk_flags.contains f
  let has_medium :=
    ["alcohol_high", "fragrance", "mint"].any fun f => risk_flags.contains f
  if wash_off && !has_strong then
    qmin br (if has_medium then mkRat 10 100 else mkRat 8 100)
  else if has_strong then
    qmax br (mkRat 12 100)
  else if has_medium then
    qmin br (mkRat 25 100)
  else
    qmin br (mkRat 15 100)

/-! ## EvidenceMerger — `src/scripts/convert_csv_v6.py` -/

/-- `_norm`: NFKD decomposition with combining marks dropped (per character on
the Latin-1 repertoire used by the sheets). -/
def csv_norm (s : String) : String := ⟨s.data.map deaccentChar⟩

/-- `_norm_lower`: `_norm(s).lower()`. -/
def norm_lower (s : String) : String := pyLower (csv_norm s)

/-- `clean_text`: strip, and treat empty or a literal `nan` as missing. -/
def clean_text (value : String) : String :=
  let s := pyStrip value
  if s = "" ∨ pyLower s = "nan" then "" else s

/-- `str.join` over a separator, as Python's `sep.join(parts)`. -/
def joinSep (sep : String) : List String → String
  | [] => ""
  | x :: xs => xs.foldl (fun acc y => acc ++ sep ++ y) x

/-- The fragment-deduplication loop of `_dedupe_join`: strip each chunk,
drop empties, keep the first fragment per `_norm_lower` key. -/
def dedupeChunks (seen : List String) : List String → List String
  | [] => []
  | chunk :: rest =>
    let c := pyStrip chunk
    if c = "" then dedupeChunks seen rest
    else
      let key := norm_lower c
      if seen.contains key then dedupeChunks seen rest
      else c :: dedupeChunks (seen ++ [key]) rest

/-- `_dedupe_join`: merge two pipe-joined evidence buckets without
re-inserting a fragment whose normalized form is already present. -/
def dedupe_join (existing incoming : String) : String :=
  let a := clean_text existing
  let b := clean_text incoming
  if b = "" then a
  else if a = "" then b
  else joinSep " | " (dedupeChunks [] (pySplitOn (a ++ " | " ++ b) '|'))

/-! ## IdentityKeyer — `src/scripts/ingest_product_raw_ingredients_csv.py` -/

/-- Helper for `re.sub(r"\s+", " ", s)`: collapse whitespace runs to one
space. -/
def collapseWsAux (inRun : Bool) : List Char → List Char
  | [] => []
  | c :: rest =>
    if isWsChar c then (if inRun then [] else [' ']) ++ collapseWsAux true rest
    else c :: collapseWsAux false rest

/-- `normalize_key`: NFKC (identity here), casefold, collapse whitespace,
strip. -/
def normalize_key (value : String) : String :=
  pyStrip ⟨collapseWsAux false (pyLower value).data⟩

/-- The identity key built in `build_rows` / `load_product_index`:
`f"{normalize_key(brand)}||{normalize_key(name)}"`. -/
def identity_key (brand name : String) : String :=
  normalize_key brand ++ "||" ++ normalize_key name

/-- `normalize_crosswalk_ref`: NFKC (identity here), strip, casefold,
collapse whitespace (no trailing strip). -/
def normalize_crosswalk_ref (value : String) : String :=
  ⟨collapseWsAux false (pyLower (pyStrip value)).data⟩

/-- Split a character list at the first occurrence of a pattern, returning
the pieces before and after it. -/
def splitAtSub (pat : List Char) : List Char → Option (List Char × List Char)
  | [] => if listIsPref pat [] then some ([], []) else none
  | c :: rest =>
    if listIsPref pat (c :: rest) then some ([], (c :: rest).drop pat.length)
    else match splitAtSub pat rest with
      | none => none
      | some (pre, post) => some (c :: pre, post)

/-- Collapse runs of `/` to a single `/`: `re.sub(r"/{2,}", "/", path)`. -/
def collapseSlashAux (inRun : Bool) : List Char → List Char
  | [] => []
  | c :: rest =>
    if c = '/' then (if inRun then [] else ['/']) ++ collapseSlashAux true rest
    else c :: collapseSlashAux false rest

/-- `canonicalize_url_reference`, modelled for the `scheme://netloc/path`
URL shapes the crosswalk refs use: accept only http/https, lower-case the
host (dropping userinfo and port), collapse repeated path separators, strip
the trailing slash, drop query/fragment; anything else yields `""`. -/
def canonicalize_url_reference (value : String) : String :=
  let raw := pyStrip value
  if raw = "" then ""
  else
    match splitAtSub "://".data raw.data with
    | none => ""
    | some (schemeCs, rest) =>
      let scheme : String := ⟨schemeCs.map lcChar⟩
      if scheme ≠ "http" ∧ scheme ≠ "https" then ""
      else
        let netloc := rest.takeWhile fun c => c ≠ '/' ∧ c ≠ '?' ∧ c ≠ '#'
        let afterHostPart := rest.drop netloc.length
        let hostPart := if netloc.contains '@' then ((netloc.reverse.takeWhile (· ≠ '@')).reverse) else netloc
        let host : String := ⟨(hostPart.takeWhile (· ≠ ':')).map lcChar⟩
        let pathCs := afterHostPart.takeWhile fun c => c ≠ '?' ∧ c ≠ '#'
        let path : String := if pathCs = [] then "/" else ⟨pathCs⟩
        let path : String := ⟨collapseSlashAux false path.data⟩
        let path : String := ⟨(path.data.reverse.dropWhile (· = '/')).reverse⟩
        let path : String := if path = "" then "/" else path
        host ++ path

/-- `normalize_crosswalk_ref_by_type`: URL-aware normalization when the
source type names a URL. -/
def normalize_crosswalk_ref_by_type (source_type value : String) : String :=
  if containsSub source_type "url" then
    let canonical := canonicalize_url_reference value
    if canonical ≠ "" then canonical else normalize_crosswalk_ref value
  else normalize_crosswalk_ref value

/-! ## FuzzyMatcher — `src/worker/kb_pack_autofill_local.py` -/

/-- `_strip_accents` of the autofill module (same NFKD-based model). -/
def strip_accents (s : String) : String := ⟨s.data.map deaccentChar⟩

/-- Characters matched by the token class `[a-z0-9]` after lower-casing. -/
def isLowerAlnum (c : Char) : Bool := ('a' ≤ c ∧ c ≤ 'z') ∨ ('0' ≤ c ∧ c ≤ '9')

/-- Maximal `[a-z0-9]` runs of a character list (the complement of splitting
on `[^a-z0-9]+`), with `cur` accumulating the current run reversed. -/
def splitRunsAux (cur : List Char) : List Char → List (List Char)
  | [] => if cur = [] then [] else [cur.reverse]
  | c :: rest =>
    if isLowerAlnum c then splitRunsAux (c :: cur) rest
    else if cur = [] then splitRunsAux [] rest
    else cur.reverse :: splitRunsAux [] rest

/-- Alphanumeric runs of a character list. -/
def splitRuns (l : List Char) : List (List Char) := splitRunsAux [] l

/-- `_tokenize`: strip, strip accents, lower, replace `+` by space, split on
`[^a-z0-9]+`, keep tokens of length at least 2. -/
def _tokenize (text : String) : List String :=
  let t := ((pyStripL text.data).map deaccentChar).map lcChar
  let t := t.map fun c => if c = '+' then ' ' else c
  ((splitRuns t).filter fun r => 2 ≤ r.length).map fun r => ⟨r⟩

/-- `BRAND_CANONICAL_MAP`. -/
def BRAND_CANONICAL_MAP : List (String × String) :=
  [("lrp", "larocheposay"), ("larocheposay", "larocheposay"),
   ("larocheposaylaboratoiredermatologique", "larocheposay"),
   ("larocheposayfrance", "larocheposay"), ("la-roche-posay", "larocheposay"),
   ("la roche posay", "larocheposay")]

/-- `canonical_brand_key`: joined tokens, then the brand-alias override. -/
def canonical_brand_key (brand : String) : String :=
  let raw := joinSep "" (_tokenize brand)
  (BRAND_CANONICAL_MAP.lookup raw).getD raw

/-- `NAME_STOPWORDS`. -/
def NAME_STOPWORDS : List String :=
  ["new", "version", "us", "eu", "global", "in", "the", "tub", "triple",
   "repair", "body", "lotion", "cream", "serum", "gel", "cleanser"]

/-- `re.sub(r"\([^)]*\)", " ", s)` on character lists: each parenthesized
group (up to the first closing parenthesis) becomes one space; once no
closing parenthesis remains, the rest is emitted verbatim, matching the
regex's leftmost-match behaviour.  `pend` holds, reversed, the consumed
characters since the pending `(`. -/
def stripParensAux (pend : List Char) : List Char → List Char
  | [] => pend.reverse
  | c :: rest =>
    match pend with
    | [] =>
      if c = '(' then stripParensAux [c] rest
      else c :: stripParensAux [] rest
    | _ :: _ =>
      if c = ')' then ' ' :: stripParensAux [] rest
      else stripParensAux (c :: pend) rest

/-- `re.sub(r"\([^)]*\)", " ", s)`. -/
def stripParens (s : String) : String := ⟨stripParensAux [] s.data⟩

/-- `canonical_name_key`: drop parenthetical qualifiers, tokenize, remove
stop-words, rejoin. -/
def canonical_name_key (name : String) : String :=
  let n := stripParens (pyStrip name)
  let tokens := (_tokenize n).filter fun t => ¬ (NAME_STOPWORDS.contains t)
  pyStrip (joinSep " " tokens)

/-- Case-insensitive literal prefix match returning the remainder. -/
def ciMatchPref : List Char → List Char → Option (List Char)
  | [], l => some l
  | _ :: _, [] => none
  | p :: ps, c :: cs => if lcChar c = lcChar p then ciMatchPref ps cs else none

/-- Try, at the head of `l`, the pattern "literal `pre`, then one or more
repetitions of `runc`, then literal `suf`" (all case-insensitive), returning
the remainder after the match. -/
def tryPatAt (pre : List Char) (runc : Char) (suf : List Char) (l : List Char) :
    Option (List Char) :=
  match ciMatchPref pre l with
  | none => none
  | some l1 =>
    let run := l1.takeWhile fun c => lcChar c = lcChar runc
    if run = [] then none
    else ciMatchPref suf (l1.drop run.length)

/-- Global, leftmost, non-overlapping case-insensitive substitution of the
pattern "`pre`, a run of `runc`, `suf`" by `repl`; this is the semantics of
the source's `re.sub` calls whose doubled backslashes make the `+` apply to
a literal backslash rather than to a character class. -/
def gsubCi (pre : List Char) (runc : Char) (suf : List Char) (repl : List Char) :
    List Char → List Char
  | [] => []
  | c :: rest =>
    match h : tryPatAt pre runc suf (c :: rest) with
    | some l2 => repl ++ gsubCi pre runc suf repl l2
    | none => c :: gsubCi pre runc suf repl rest
termination_by l => l.length
decreasing_by
  · have cim : ∀ (p l r : List Char), ciMatchPref p l = some r → r.length ≤ l.length := by
      intro p
      induction p with
      | nil => intro l r hm; simp [ciMatchPref] at hm; simp [hm]
      | cons p ps ih =>
        intro l r hm
        cases l with
        | nil => simp [ciMatchPref] at hm
        | cons d ds =>
          simp only [ciMatchPref] at hm
          split at hm
          · exact Nat.le_succ_of_le (ih ds r hm)
          · exact absurd hm (by simp)
    unfold tryPatAt at h
    cases h1 : ciMatchPref pre (c :: rest) with
    | none => rw [h1] at h; exact absurd h (by simp)
    | some l1 =>
      rw [h1] at h
      simp only at h
      split at h
      · exact absurd h (by simp)
      · rename_i hrun
        have hr := cim suf _ l2 h
        have hl1 := cim pre (c :: rest) l1 h1
        have hpos : 0 < (l1.takeWhile fun d => lcChar d = lcChar runc).length := by
          cases hw : l1.takeWhile fun d => lcChar d = lcChar runc with
          | nil => exact absurd hw hrun
          | cons a as => simp
        have hdrop : (l1.drop (l1.takeWhile fun d => lcChar d = lcChar runc).length).length
            = l1.length - (l1.takeWhile fun d => lcChar d = lcChar runc).length := by
          simp
        have htw : (l1.takeWhile fun d => lcChar d = lcChar runc).length ≤ l1.length :=
          List.Sublist.length_le (List.takeWhile_sublist _)
        simp only [List.length_cons] at hl1 ⊢
        omega
  · simp

/-- The candidate deduplication loop of `generate_name_candidates`: each
variant is keyed by `canonical_name_key(v) or v.lower()`. -/
def dedupCandidates (seen : List String) : List String → List String
  | [] => []
  | v :: rest =>
    let k0 := canonical_name_key v
    let k := if k0 = "" then pyLower v else k0
    if seen.contains k then dedupCandidates seen rest
    else v :: dedupCandidates (seen ++ [k]) rest

/-- `generate_name_candidates`: the name, its parenthetical-stripped form,
and fixed abbreviation expansions, deduplicated by canonical name key and
capped at 8.  The `re.sub` patterns are reproduced with their doubled
backslashes, so each demands a literal backslash in the input. -/
def generate_name_candidates (name : String) : List String :=
  let raw := pyStrip name
  if raw = "" then []
  else
    let no_parens := pyStrip (stripParens raw)
    let out := [raw] ++
      (if no_parens ≠ "" ∧ no_parens ≠ raw then [no_parens] else []) ++
      (if containsSub raw "B5+" || containsSub (pyLower raw) "b5+" then
        [pyStrip ⟨gsubCi "b5".data '\\' [] "B5".data raw.data⟩] else []) ++
      (if containsSub raw "AP+M" || containsSub (pyLower raw) "ap+m" then
        [pyStrip ⟨gsubCi "ap".data '\\' "m".data "AP+M".data raw.data⟩, "Lipikar Baume AP+M"]
       else []) ++
      (if containsSub (pyLower raw) "triple repair" then
        [pyStrip ⟨gsubCi ("triple".data ++ ['\\']) 's' "repair".data [] raw.data⟩,
         "Lipikar Baume AP+M"]
       else []) ++
      (if containsSub (pyLower raw) "mineral 89" || containsSub (pyLower raw) "minéral 89" then
        ["Minéral 89"] else [])
    (dedupCandidates [] out).take 8

/-- `jaccard`: token-set similarity; `mkRat` renders the exact division
`len(inter) / max(1, len(union))`. -/
def jaccard (a b : List String) : ℚ :=
  let sa := a.toFinset
  let sb := b.toFinset
  if sa = ∅ ∧ sb = ∅ then 1
  else if sa = ∅ ∨ sb = ∅ then 0
  else mkRat (sa ∩ sb).card (max 1 (sa ∪ sb).card)

/-- `SourceItem` (the fields not read by `best_match` are carried as loaded
from the dataset; `expert_knowledge` is an opaque payload to the matcher). -/
structure SourceItem where
  brand : String
  name : String
  brand_key : String
  name_key : String
  ingredients_text : String
  price_usd : Option ℚ
  availability : List String
  category : Option String
  expert_knowledge : Option String
  source_file : String
deriving DecidableEq, Repr

/-- The exact-match phase of `best_match`: first name variant whose nonempty
canonical key equals a candidate's stored `name_key`. -/
def exactPhase (candidates : List SourceItem) (name : String) : Option SourceItem :=
  (generate_name_candidates name).findSome? fun cand_name =>
    let nkey := canonical_name_key cand_name
    if nkey = "" then none
    else candidates.find? fun s => s.name_key ≠ "" ∧ s.name_key = nkey

/-- The fuzzy score of one candidate: token-set Jaccard plus the capped
substring bonus of 0.15. -/
def scoreOf (name : String) (s : SourceItem) : ℚ :=
  let want_tokens := _tokenize (stripParens name)
  let got_tokens := _tokenize (stripParens s.name)
  let score := jaccard want_tokens got_tokens
  let want_s := pyLower (strip_accents (pyStrip name))
  let got_s := pyLower (strip_accents (pyStrip s.name))
  if want_s ≠ "" ∧ got_s ≠ "" ∧ (containsSub got_s want_s || containsSub want_s got_s) then
    qmin 1 (qadd score (mkRat 15 100))
  else score

/-- The best-candidate loop of `best_match` (strict improvement, so ties
keep the first-seen candidate), with the running `best` accumulator. -/
def fuzzyBestAux (name : String) (best : Option (ℚ × SourceItem)) :
    List SourceItem → Option (ℚ × SourceItem)
  | [] => best
  | s :: rest =>
    let score := scoreOf name s
    let best2 : Option (ℚ × SourceItem) :=
      match best with
      | none => some (score, s)
      | some (b, sb) => if b < score then some (score, s) else some (b, sb)
    fuzzyBestAux name best2 rest

/-- The best-candidate selection of `best_match`. -/
def fuzzyBest (candidates : List SourceItem) (name : String) : Option (ℚ × SourceItem) :=
  fuzzyBestAux name none candidates

/-- `best_match`: brand-key restriction, exact name-variant phase, then
fuzzy scoring against the 0.55 acceptance threshold. -/
def best_match (sources : List SourceItem) (brand name : String) :
    Option SourceItem × String × ℚ :=
  let bkey := canonical_brand_key brand
  let candidates := sources.filter fun s => s.brand_key = bkey
  if candidates = [] then (none, "no_brand_match", 0)
  else
    match exactPhase candidates name with
    | some s => (some s, "exact", 1)
    | none =>
      match fuzzyBest candidates name with
      | none => (none, "no_name_match", 0)
      | some (score, s) =>
        if score < mkRat 55 100 then (none, "low_confidence", score)
        else (some s, "fuzzy", score)

/-! ## CrosswalkResolver and ingestion state —
`src/scripts/ingest_product_raw_ingredients_csv.py` -/

/-- Crosswalk provenance metadata: the `source` label and `row_index` the
script stores. -/
structure CwMeta where
  source : String
  row_index : Nat
deriving DecidableEq, Repr

/-- One row of the `product_crosswalks` relation.  Product ids are the
`Nat`-indexed fresh-identifier supply standing in for `uuid4` strings. -/
structure CwRow where
  productId : Nat
  source_system : String
  source_type : String
  external_ref : String
  external_ref_normalized : String
  confidence : Nat
  metadata : CwMeta
deriving DecidableEq, Repr

/-- The unique-index key of `product_crosswalks`. -/
def cwTripleMatches (sys typ norm : String) (r : CwRow) : Bool :=
  r.source_system = sys ∧ r.source_type = typ ∧ r.external_ref_normalized = norm

/-- The `INSERT ... ON CONFLICT (source_system, source_type,
external_ref_normalized) DO UPDATE ... WHERE product_id = EXCLUDED.product_id`
statement, followed by the conflict lookup of the loop body: inserts when the
triple is free, updates `external_ref`/`confidence`/`metadata` when the
existing mapping has the same product, otherwise writes nothing and reports
`(existing product id, incoming product id)`.  The second component is the
`rowcount = 1` flag. -/
def upsertCwStep (table : List CwRow) (pid : Nat) (sys typ ref norm : String)
    (conf : Nat) (meta : CwMeta) : List CwRow × Bool × Option (Nat × Nat) :=
  match table.find? (cwTripleMatches sys typ norm) with
  | none =>
    (table ++ [⟨pid, sys, typ, ref, norm, conf, meta⟩], true, none)
  | some r =>
    if r.productId = pid then
      (table.map fun q =>
        if cwTripleMatches sys typ norm q then
          { q with external_ref := ref, confidence := conf, metadata := meta }
        else q,
       true, none)
    else (table, false, some (r.productId, pid))

/-- The reference tuples `upsert_product_crosswalks` builds from a reviewed
CSV row: `(source_system, source_type, external_ref, confidence, metadata)`. -/
structure CsvIngestRow where
  row_index : Nat
  candidate_id : String
  brand : String
  name : String
  market : String
  source_ref : String
  canonical_url : String
  pivota_product_id : String
  external_product_id : String
  external_seed_id : String
  raw_ingredient_text : String
  ingredient_list : List String
  parse_status : String
  review_status : String
  score : Nat
deriving DecidableEq, Repr

/-- The `refs` list of `upsert_product_crosswalks`, in source order. -/
def crosswalkRefsFor (pid : Nat) (row : CsvIngestRow) (include_source_ref_url : Bool) :
    List (String × String × String × Nat × CwMeta) :=
  [("aurora", "product_id", Nat.repr pid, 100, ⟨"aurora_ingest", row.row_index⟩)] ++
  (if row.candidate_id ≠ "" then
    [("harvester", "candidate_id", row.candidate_id, 80, ⟨"manual_review_csv", row.row_index⟩)]
   else []) ++
  (if row.pivota_product_id ≠ "" then
    [("pivota", "product_id", row.pivota_product_id, 95, ⟨"manual_review_csv", row.row_index⟩)]
   else []) ++
  (if row.external_product_id ≠ "" then
    [("pivota", "external_product_id", row.external_product_id, 95,
      ⟨"manual_review_csv", row.row_index⟩)]
   else []) ++
  (if row.external_seed_id ≠ "" then
    [("pivota", "external_seed_id", row.external_seed_id, 90,
      ⟨"manual_review_csv", row.row_index⟩)]
   else []) ++
  (if row.canonical_url ≠ "" then
    [("merchant", "canonical_url", row.canonical_url, 90, ⟨"manual_review_csv", row.row_index⟩)]
   else []) ++
  (if include_source_ref_url ∧ row.source_ref ≠ "" then
    [("merchant", "source_ref_url", row.source_ref, 85, ⟨"manual_review_csv", row.row_index⟩)]
   else [])

/-- The per-reference loop of `upsert_product_crosswalks`: skip empty
normalizations, deduplicate triples within the call via `seen_keys`, and
accumulate `(upserted, conflicts)` counts. -/
def cwLoop (pid : Nat) (table : List CwRow) (seen : List (String × String × String)) :
    List (String × String × String × Nat × CwMeta) → List CwRow × Nat × Nat
  | [] => (table, 0, 0)
  | (sys, typ, ref, conf, meta) :: rest =>
    let normalized := normalize_crosswalk_ref_by_type typ ref
    if normalized = "" then cwLoop pid table seen rest
    else if seen.contains (sys, typ, normalized) then cwLoop pid table seen rest
    else
      let step := upsertCwStep table pid sys typ ref normalized conf meta
      let next := cwLoop pid step.1 (seen ++ [(sys, typ, normalized)]) rest
      (next.1,
       (if step.2.1 then 1 else 0) + next.2.1,
       (if step.2.1 then 0 else 1) + next.2.2)

/-- `upsert_product_crosswalks`: returns the new table and the
`(upserted, conflicts)` counters. -/
def upsert_product_crosswalks (table : List CwRow) (pid : Nat) (row : CsvIngestRow)
    (include_source_ref_url : Bool) : List CwRow × Nat × Nat :=
  cwLoop pid table [] (crosswalkRefsFor pid row include_source_ref_url)

/-- One row of the `products` relation (the fields `ingest_rows` reads and
writes; prices and URLs are set once at insert and never read back by the
ingestion loop). -/
structure ProductRow where
  id : Nat
  brand : String
  name : String
  regions : List String
deriving DecidableEq, Repr

/-- One row of the `ingredients` relation. -/
structure IngredientsRow where
  id : Nat
  productId : Nat
  full_list : List String
deriving DecidableEq, Repr

/-- The relational state the CSV ingestion loop touches, together with the
fresh-identifier supply standing in for `uuid4` (`product_aliases` and
`product_kb_snippets` are written through independent `ON CONFLICT DO
UPDATE` upserts keyed on their own unique indexes; they receive no reads
from this loop and cannot create product or crosswalk rows, so they are not
carried). -/
structure DbState where
  products : List ProductRow
  ingredients : List IngredientsRow
  crosswalks : List CwRow
  nextId : Nat
deriving DecidableEq, Repr

/-- The identity key of a stored product row, as rebuilt by
`load_product_index`. -/
def productRowKey (p : ProductRow) : String := identity_key p.brand p.name

/-- In-memory `product_index`: insertion-ordered association of identity key
to `(product id, regions)`. -/
abbrev ProductIndex := List (String × Nat × List String)

/-- First-match dictionary lookup. -/
def idxLookup (idx : ProductIndex) (k : String) : Option (Nat × List String) :=
  (idx.find? fun e => e.1 = k).map fun e => e.2

/-- Python dict assignment `d[k] = v`: replace in place or append. -/
def idxAssign (idx : ProductIndex) (k : String) (v : Nat × List String) : ProductIndex :=
  if (idx.find? fun e => e.1 = k).isSome then
    idx.map fun e => if e.1 = k then (k, v) else e
  else idx ++ [(k, v)]

/-- The `setdefault` loop of `load_product_index` (first occurrence wins). -/
def loadProductAux (idx : ProductIndex) : List ProductRow → ProductIndex
  | [] => idx
  | p :: rest =>
    loadProductAux
      (if (idx.find? fun e => e.1 = productRowKey p).isSome then idx
       else idx ++ [(productRowKey p, p.id, p.regions)])
      rest

/-- `load_product_index`: scan the products relation with `setdefault`
(first occurrence wins). -/
def load_product_index (products : List ProductRow) : ProductIndex :=
  loadProductAux [] products

/-- In-memory `ingredient_index`: product id to `(ingredient row id,
full_list)`. -/
abbrev IngIndex := List (Nat × Nat × List String)

/-- First-match lookup in the ingredient index. -/
def ingIdxLookup (idx : IngIndex) (pid : Nat) : Option (Nat × List String) :=
  (idx.find? fun e => e.1 = pid).map fun e => e.2

/-- Dict assignment for the ingredient index. -/
def ingIdxAssign (idx : IngIndex) (pid : Nat) (v : Nat × List String) : IngIndex :=
  if (idx.find? fun e => e.1 = pid).isSome then
    idx.map fun e => if e.1 = pid then (pid, v) else e
  else idx ++ [(pid, v)]

/-- The assignment loop of `load_ingredient_index` (last row wins on a
duplicated product id). -/
def loadIngAux (idx : IngIndex) : List IngredientsRow → IngIndex
  | [] => idx
  | r :: rest => loadIngAux (ingIdxAssign idx r.productId (r.id, r.full_list)) rest

/-- `load_ingredient_index`: dict assignment per row. -/
def load_ingredient_index (ingredients : List IngredientsRow) : IngIndex :=
  loadIngAux [] ingredients

/-- `sorted(set(xs))` over region strings: drop empties, deduplicate, sort
in Python's code-point order. -/
def sortedRegionSet (xs : List String) : List String :=
  ((pyDedup (xs.filter fun r => r ≠ "")).mergeSort fun a b => a ≤ b)

/-- Per-record outcome of the ingredient upsert. -/
inductive IngOutcome
  | inserted
  | updated
  | unchanged
deriving DecidableEq, Repr

/-- Per-record outcome of one `ingest_rows` iteration, mirroring the
statistics counters the script keeps. -/
structure RecordOutcome where
  productInserted : Bool
  regionsUpdated : Bool
  ingredient : IngOutcome
  crosswalksUpserted : Nat
  crosswalkConflicts : Nat
deriving DecidableEq, Repr

/-- The find-or-create-product phase of one `ingest_rows` iteration: look the
identity key up in the in-memory index, insert a new product on a miss, merge
the market into the regions on a hit with a new market.  Returns the new
state, index, the product id and the `(inserted, regions_updated)` flags. -/
def prodPhase (has_region : Bool) (st : DbState) (pidx : ProductIndex) (row : CsvIngestRow) :
    DbState × ProductIndex × Nat × Bool × Bool :=
  let key := identity_key row.brand row.name
  match idxLookup pidx key with
  | none =>
    let product_id := st.nextId
    let idxRegions := if row.market ≠ "" then [row.market] else []
    let newProd : ProductRow :=
      ⟨product_id, row.brand, row.name, if has_region then idxRegions else []⟩
    ({ st with products := st.products ++ [newProd], nextId := st.nextId + 1 },
     idxAssign pidx key (product_id, idxRegions), product_id, true, false)
  | some (product_id, known_regions) =>
    if has_region ∧ row.market ≠ "" ∧ ¬ (known_regions.contains row.market) then
      let merged := sortedRegionSet (known_regions ++ [row.market])
      ({ st with products :=
          st.products.map fun p => if p.id = product_id then { p with regions := merged } else p },
       idxAssign pidx key (product_id, merged), product_id, false, true)
    else (st, pidx, product_id, false, false)

/-- The ingredient-upsert phase of one `ingest_rows` iteration: insert the
list for a product without one, replace a differing stored list, keep an
identical one. -/
def ingPhase (st : DbState) (iidx : IngIndex) (product_id : Nat) (row : CsvIngestRow) :
    DbState × IngIndex × IngOutcome :=
  match ingIdxLookup iidx product_id with
  | none =>
    let new_ingredient_id := st.nextId
    ({ st with
        ingredients := st.ingredients ++ [⟨new_ingredient_id, product_id, row.ingredient_list⟩],
        nextId := st.nextId + 1 },
     ingIdxAssign iidx product_id (new_ingredient_id, row.ingredient_list),
     IngOutcome.inserted)
  | some (ingredient_id, existing_list) =>
    if existing_list = row.ingredient_list then (st, iidx, IngOutcome.unchanged)
    else
      ({ st with ingredients :=
          st.ingredients.map fun r =>
            if r.id = ingredient_id then { r with full_list := row.ingredient_list } else r },
       ingIdxAssign iidx product_id (ingredient_id, row.ingredient_list),
       IngOutcome.updated)

/-- The crosswalk phase of one `ingest_rows` iteration: a no-op unless
crosswalk upserting is requested and the table exists. -/
def cwPhase (upsert_crosswalks has_product_crosswalks incl_src : Bool) (st : DbState)
    (product_id : Nat) (row : CsvIngestRow) : List CwRow × Nat × Nat :=
  if upsert_crosswalks ∧ has_product_crosswalks then
    upsert_product_crosswalks st.crosswalks product_id row incl_src
  else (st.crosswalks, 0, 0)

/-- One iteration of the `ingest_rows` loop: find-or-create the product via
the in-memory index, merge regions, upsert the ingredient list, then the
crosswalk references. -/
def ingestOneRow (has_region upsert_crosswalks has_product_crosswalks incl_src : Bool)
    (st : DbState) (pidx : ProductIndex) (iidx : IngIndex) (row : CsvIngestRow) :
    DbState × ProductIndex × IngIndex × RecordOutcome :=
  let a := prodPhase has_region st pidx row
  let b := ingPhase a.1 iidx a.2.2.1 row
  let cw := cwPhase upsert_crosswalks has_product_crosswalks incl_src b.1 a.2.2.1 row
  ({ b.1 with crosswalks := cw.1 }, a.2.1, b.2.1,
   ⟨a.2.2.2.1, a.2.2.2.2, b.2.2, cw.2.1, cw.2.2⟩)

/-- The fold of `ingest_rows` over its (already index-loaded) state. -/
def ingestRowsLoop (has_region upsert_crosswalks has_product_crosswalks incl_src : Bool)
    (st : DbState) (pidx : ProductIndex) (iidx : IngIndex) :
    List CsvIngestRow → DbState × ProductIndex × IngIndex × List RecordOutcome
  | [] => (st, pidx, iidx, [])
  | row :: rest =>
    let step := ingestOneRow has_region upsert_crosswalks has_product_crosswalks incl_src
      st pidx iidx row
    let next := ingestRowsLoop has_region upsert_crosswalks has_product_crosswalks incl_src
      step.1 step.2.1 step.2.2.1 rest
    (next.1, next.2.1, next.2.2.1, step.2.2.2 :: next.2.2.2)

/-- `ingest_rows`: load both in-memory indexes from the store, then process
the reviewed rows in order (the committed, mutating run). -/
def ingest_rows (has_region upsert_crosswalks has_product_crosswalks incl_src : Bool)
    (st : DbState) (rows : List CsvIngestRow) : DbState × List RecordOutcome :=
  let out := ingestRowsLoop has_region upsert_crosswalks has_product_crosswalks incl_src
    st (load_product_index st.products) (load_ingredient_index st.ingredients) rows
  (out.1, out.2.2.2)

/-! ## Invariants for the ingestion idempotence argument -/

/-- The identity key of an incoming reviewed row. -/
def rowKeyOfCsv (row : CsvIngestRow) : String := identity_key row.brand row.name

/-- A crosswalk unique-index triple is present in the table. -/
def HasTriple (table : List CwRow) (t : String × String × String) : Prop :=
  ∃ r ∈ table, r.source_system = t.1 ∧ r.source_type = t.2.1 ∧
    r.external_ref_normalized = t.2.2

/-- Store sanity: distinct product ids below the fresh-id supply, one
ingredients row per product, distinct ingredient-row ids. -/
def GoodState (st : DbState) : Prop :=
  (st.products.map fun p => p.id).Nodup ∧
  (∀ p ∈ st.products, p.id < st.nextId) ∧
  ((st.ingredients.map fun r => r.productId).Nodup) ∧
  ((st.ingredients.map fun r => r.id).Nodup) ∧
  (∀ r ∈ st.ingredients, r.id < st.nextId)

/-- The in-memory product index agrees with the products relation: on ids
always, and on the cached region lists whenever the region column exists
(when it does not, the cached regions are never read back). -/
def IdxOk (has_region : Bool) (pidx : ProductIndex) (products : List ProductRow) : Prop :=
  (∀ k, (idxLookup pidx k).map Prod.fst =
      (products.find? fun p => productRowKey p = k).map fun p => p.id) ∧
  (has_region = true → ∀ k, idxLookup pidx k =
      (products.find? fun p => productRowKey p = k).map fun p => (p.id, p.regions))

/-- The in-memory ingredient index mirrors the ingredients relation. -/
def IngIdxOk (iidx : IngIndex) (ings : List IngredientsRow) : Prop :=
  ∀ pid, ingIdxLookup iidx pid =
    (ings.find? fun r => r.productId = pid).map fun r => (r.id, r.full_list)

/-- The persisted facts one successful ingestion of `row` leaves behind:
its product exists with the market recorded, its ingredient list is stored,
and every crosswalk reference triple it generates is present. -/
def Established (has_region upsert_crosswalks has_product_crosswalks incl_src : Bool)
    (st : DbState) (row : CsvIngestRow) : Prop :=
  ∃ p, (st.products.find? fun q => productRowKey q = rowKeyOfCsv row) = some p ∧
    (has_region = true → row.market ≠ "" → row.market ∈ p.regions) ∧
    (∃ ir, (st.ingredients.find? fun r => r.productId = p.id) = some ir ∧
      ir.full_list = row.ingredient_list) ∧
    (upsert_crosswalks = true → has_product_crosswalks = true →
      ∀ sys typ ref conf meta,
        (sys, typ, ref, conf, meta) ∈ crosswalkRefsFor p.id row incl_src →
        normalize_crosswalk_ref_by_type typ ref ≠ "" →
        HasTriple st.crosswalks (sys, typ, normalize_crosswalk_ref_by_type typ ref))

/-! ## Auxiliary predicates for tokenizer reasoning -/

/-- The per-character transformation `_tokenize` applies before splitting:
accent stripping, lower-casing, and `+`-to-space replacement. -/
def tokPrep (c : Char) : Char :=
  if lcChar (deaccentChar c) = '+' then ' ' else lcChar (deaccentChar c)

/-- Does the list contain two adjacent characters both satisfying `p`?  This
is exactly the existence of a token of length at least 2 when splitting on
the complement of `p`. -/
def hasAdjP (p : Char → Bool) : List Char → Bool
  | [] => false
  | [_] => false
  | a :: b :: rest => (p a && p b) || hasAdjP p (b :: rest)

/-- Alphanumeric-after-preparation: the predicate whose adjacent pairs make
`_tokenize` produce a token of length at least 2. -/
def pAl (c : Char) : Bool := isLowerAlnum (tokPrep c)

/-! ## Lemmas: SafetyClassifier -/

theorem mem_ite_singleton {x y : String} {c : Bool} :
    x ∈ (if c then [y] else []) ↔ (c = true ∧ x = y) := by
  cases c <;> simp

theorem mem_riskFlagsRaw_iff (t : String) (x : String) :
    x ∈ riskFlagsRaw t ↔
      (hasAnyNeedle ((riskItems t).take 5) alcohol_terms = true ∧ x = "alcohol_high") ∨
      (hasAnyNeedle (riskItems t) ["polysorbate"] = true ∧ x = "fungal_acne") ∨
      ((hasAnyNeedle (riskItems t) fragrance_markers
          || hasAnyNeedle (riskItems t) fragrance_allergens) = true ∧ x = "fragrance") ∨
      (hasAnyNeedle (riskItems t) mint_terms = true ∧ x = "mint") ∨
      (hasRetinoid t = true ∧ x = "retinol_high") ∨
      (hasAnyNeedle (riskItems t) ["benzoyl peroxide"] = true ∧ x = "benzoyl_peroxide") ∨
      (hasStrongAcid t = true ∧ x = "strong_acid") ∨
      ((hasAnyNeedle (riskItems t) mild_acid_terms && !hasStrongAcid t) = true ∧ x = "mild_acid") ∨
      ((hasRetinoid t || hasStrongAcid t
          || hasAnyNeedle (riskItems t) ["benzoyl peroxide"]) = true ∧ x = "high_irritation") := by
  simp only [riskFlagsRaw, hasRetinoid, List.mem_append, mem_ite_singleton, or_assoc]

theorem appendMissing_mem {s l : List String} {x : String} :
    x ∈ appendMissing s l ↔ x ∈ s ∨ x ∈ l := by
  induction l generalizing s with
  | nil => simp [appendMissing]
  | cons f rest ih =>
    simp only [appendMissing]
    split
    · rename_i hc
      rw [ih]
      have hf : f ∈ s := List.elem_iff.mp hc
      constructor
      · rintro (h | h)
        · exact Or.inl h
        · exact Or.inr (List.mem_cons_of_mem _ h)
      · rintro (h | h)
        · exact Or.inl h
        · rcases List.mem_cons.mp h with rfl | h
          · exact Or.inl hf
          · exact Or.inr h
    · rw [ih]
      simp only [List.mem_append, List.mem_singleton, List.mem_cons]
      tauto

theorem mem_infer_iff (n t : String) (x : String) :
    x ∈ infer_risk_flags_from_ingredients n t ↔ x ∈ riskFlagsRaw t := by
  unfold infer_risk_flags_from_ingredients
  rw [appendMissing_mem]
  simp only [List.mem_filter]
  constructor
  · rintro (⟨_, h⟩ | h)
    · exact List.elem_iff.mp h
    · exact h
  · intro h
    exact Or.inr h

theorem appendMissing_nodup {s : List String} (l : List String) (hs : s.Nodup) :
    (appendMissing s l).Nodup := by
  induction l generalizing s with
  | nil => exact hs
  | cons f rest ih =>
    simp only [appendMissing]
    split
    · exact ih hs
    · rename_i hc
      refine ih ?_
      have hf : f ∉ s := fun hm => hc (List.elem_iff.mpr hm)
      simp [List.nodup_append, hs, hf]

theorem infer_nodup (n t : String) : (infer_risk_flags_from_ingredients n t).Nodup := by
  unfold infer_risk_flags_from_ingredients
  exact appendMissing_nodup _ (List.Nodup.filter _ (by decide))

theorem allowlist_subset_gated {g : String} (h : g ∈ riskFlagAllowlist) :
    g ∈ evidenceGated := by
  fin_cases h <;> decide

theorem cleanHintFlags_mem {det l : List String} {x : String}
    (h : x ∈ cleanHintFlags det l) : x ∈ riskFlagAllowlist ∧ x ∈ det := by
  induction l with
  | nil => simp [cleanHintFlags] at h
  | cons raw rest ih =>
    simp only [cleanHintFlags] at h
    split at h
    · exact ih h
    · split at h
      · exact ih h
      · split at h
        · exact ih h
        · rename_i hallow hgate
          rcases List.mem_cons.mp h with hx | h
          · rw [hx]
            have ha : applySynonym (norm_flag raw) ∈ riskFlagAllowlist := by
              by_contra hn
              exact hallow fun hb => hn (List.elem_iff.mp hb)
            refine ⟨ha, ?_⟩
            have hg : applySynonym (norm_flag raw) ∈ evidenceGated := allowlist_subset_gated ha
            by_contra hd
            exact hgate ⟨List.elem_iff.mpr hg, fun hb => hd (List.elem_iff.mp hb)⟩
          · exact ih h

theorem pyDedupAux_all_seen {seen l : List String}
    (h : ∀ x ∈ l, x ∈ seen) : pyDedupAux seen l = [] := by
  induction l with
  | nil => rfl
  | cons x xs ih =>
    simp only [pyDedupAux]
    rw [if_pos (List.elem_iff.mpr (h x (List.mem_cons_self x xs)))]
    exact ih fun y hy => h y (List.mem_cons_of_mem _ hy)

theorem pyDedupAux_append {l : List String} :
    ∀ {seen extra : List String}, l.Nodup → (∀ x ∈ l, x ∉ seen) →
      (∀ x ∈ extra, x ∈ seen ∨ x ∈ l) → pyDedupAux seen (l ++ extra) = l := by
  induction l with
  | nil =>
    intro seen extra _ _ hext
    refine pyDedupAux_all_seen fun x hx => ?_
    rcases hext x hx with h | h
    · exact h
    · exact absurd h (List.not_mem_nil x)
  | cons a as ih =>
    intro seen extra hnd hsep hext
    simp only [List.cons_append, pyDedupAux]
    have ha : ¬ (seen.contains a = true) := fun hb =>
      hsep a (List.mem_cons_self a as) (List.elem_iff.mp hb)
    rw [if_neg ha]
    congr 1
    refine ih (List.Nodup.of_cons hnd) ?_ ?_
    · intro x hx hmem
      rcases List.mem_append.mp hmem with hs | hone
      · exact hsep x (List.mem_cons_of_mem _ hx) hs
      · rcases List.mem_singleton.mp hone with rfl
        exact (List.nodup_cons.mp hnd).1 hx
    · intro x hx
      rcases hext x hx with hs | hl
      · exact Or.inl (List.mem_append.mpr (Or.inl hs))
      · rcases List.mem_cons.mp hl with rfl | hmem
        · exact Or.inl (List.mem_append.mpr (Or.inr (List.mem_singleton_self x)))
        · exact Or.inr hmem

/-- The hint-reconciliation step never changes the deterministic flag list:
corroborated hints are already members, everything else is dropped. -/
theorem postprocess_eq_deterministic (llm_flags : List String) (n t : String) :
    postprocess_risk_flags llm_flags n t = infer_risk_flags_from_ingredients n t := by
  unfold postprocess_risk_flags pyDedup
  refine pyDedupAux_append (infer_nodup n t) (by simp) ?_
  intro x hx
  exact Or.inr (cleanHintFlags_mem hx).2

theorem mem_raw_retinol (t : String) :
    "retinol_high" ∈ riskFlagsRaw t ↔ hasRetinoid t = true := by
  rw [mem_riskFlagsRaw_iff]; simp

theorem mem_raw_strong (t : String) :
    "strong_acid" ∈ riskFlagsRaw t ↔ hasStrongAcid t = true := by
  rw [mem_riskFlagsRaw_iff]; simp

theorem mem_raw_mild (t : String) :
    "mild_acid" ∈ riskFlagsRaw t ↔
      (hasAnyNeedle (riskItems t) mild_acid_terms = true ∧ hasStrongAcid t = false) := by
  rw [mem_riskFlagsRaw_iff]; simp

theorem infer_subset_allowlist {n t x : String}
    (h : x ∈ infer_risk_flags_from_ingredients n t) : x ∈ riskFlagAllowlist := by
  rw [mem_infer_iff, mem_riskFlagsRaw_iff] at h
  rcases h with ⟨_, rfl⟩|⟨_, rfl⟩|⟨_, rfl⟩|⟨_, rfl⟩|⟨_, rfl⟩|⟨_, rfl⟩|⟨_, rfl⟩|⟨_, rfl⟩|⟨_, rfl⟩
    <;> decide

/-- C9: External-hint noninterference — `postprocess_risk_flags` returns the
deterministic flag set of `infer_risk_flags_from_ingredients` whatever the
hint list is, so hints can never add a flag the deterministic pass did not
produce. -/
theorem C9_external_hint_noninterference (llm_flags : List String) (pname text : String) :
    postprocess_risk_flags llm_flags pname text
      = infer_risk_flags_from_ingredients pname text :=
  postprocess_eq_deterministic llm_flags pname text

/-- C1: Evidence gating — a (synonym-normalized) hinted flag appears in the
merged flag set only when it is in the allow-list and in the deterministic
set; in particular `retinol_high` (the normalization of the hint "retinol")
survives only when the ingredient text contains a retinoid term. -/
theorem C1_evidence_gating (hints : List String) (pname text raw : String) :
    raw ∈ hints →
      ((applySynonym (norm_flag raw) ∈ postprocess_risk_flags hints pname text →
          applySynonym (norm_flag raw) ∈ riskFlagAllowlist ∧
          applySynonym (norm_flag raw) ∈ infer_risk_flags_from_ingredients pname text) ∧
        ("retinol_high" ∈ postprocess_risk_flags hints pname text →
          hasRetinoid text = true)) := by
  intro _
  rw [postprocess_eq_deterministic]
  refine ⟨fun h => ⟨infer_subset_allowlist h, h⟩, fun h => ?_⟩
  exact (mem_raw_retinol text).mp ((mem_infer_iff pname text _).mp h)

/-- Witness for C1 at a concrete input: the hint list `["retinol"]` against
a retinol-free text leaves the merged set empty, and against a text with
retinol the general theorem applies with its hypotheses discharged. -/
theorem C1_evidence_gating_witness :
    ("retinol_high" ∈ postprocess_risk_flags ["retinol"] "N" "Water, Retinol" →
        hasRetinoid "Water, Retinol" = true) ∧
      postprocess_risk_flags ["retinol"] "N" "Water, Glycerin" = [] :=
  ⟨(C1_evidence_gating ["retinol"] "N" "Water, Retinol" "retinol"
      (by decide)).2, by decide⟩

/-- C2 (corrected statement): mutual exclusivity per result — whenever
strong-acid evidence is found in the top-10 window, the flag set contains
`strong_acid` and not `mild_acid`; and no result ever contains both. -/
theorem C2_acid_mutual_exclusivity (pname text : String) :
    (hasStrongAcid text = true →
      "strong_acid" ∈ infer_risk_flags_from_ingredients pname text ∧
      "mild_acid" ∉ infer_risk_flags_from_ingredients pname text) ∧
    ¬ ("strong_acid" ∈ infer_risk_flags_from_ingredients pname text ∧
        "mild_acid" ∈ infer_risk_flags_from_ingredients pname text) := by
  constructor
  · intro h
    constructor
    · exact (mem_infer_iff pname text _).mpr ((mem_raw_strong text).mpr h)
    · intro hm
      have := (mem_raw_mild text).mp ((mem_infer_iff pname text _).mp hm)
      rw [h] at this
      exact absurd this.2 (by simp)
  · rintro ⟨hs, hm⟩
    have h1 := (mem_raw_strong text).mp ((mem_infer_iff pname text _).mp hs)
    have h2 := (mem_raw_mild text).mp ((mem_infer_iff pname text _).mp hm)
    rw [h1] at h2
    exact absurd h2.2 (by simp)

/-- Witness for C2 at a concrete input with both acid classes present in the
top-10 window. -/
theorem C2_acid_mutual_exclusivity_witness :
    "strong_acid" ∈ infer_risk_flags_from_ingredients "N" "Glycolic Acid, Azelaic Acid" ∧
      "mild_acid" ∉ infer_risk_flags_from_ingredients "N" "Glycolic Acid, Azelaic Acid" :=
  (C2_acid_mutual_exclusivity "N" "Glycolic Acid, Azelaic Acid").1 (by decide)

/-- C2 counterexample to the claim as stated: this ingredient text contains
the strong-acid term "glycolic acid" (at position 11, outside the top-10
window) and the mild-acid term "azelaic acid", yet the derived flag set
contains `mild_acid` and not `strong_acid`. -/
theorem C2_acid_claim_counterexample :
    containsSub (pyLower "Water, Glycerin, Butylene Glycol, Niacinamide, Panthenol, Squalane, Dimethicone, Allantoin, Betaine, Sodium Hyaluronate, Glycolic Acid, Azelaic Acid") "glycolic acid" = true ∧
    containsSub (pyLower "Water, Glycerin, Butylene Glycol, Niacinamide, Panthenol, Squalane, Dimethicone, Allantoin, Betaine, Sodium Hyaluronate, Glycolic Acid, Azelaic Acid") "azelaic acid" = true ∧
    infer_risk_flags_from_ingredients "N" "Water, Glycerin, Butylene Glycol, Niacinamide, Panthenol, Squalane, Dimethicone, Allantoin, Betaine, Sodium Hyaluronate, Glycolic Acid, Azelaic Acid" = ["mild_acid"] ∧
    "strong_acid" ∉ infer_risk_flags_from_ingredients "N" "Water, Glycerin, Butylene Glycol, Niacinamide, Panthenol, Squalane, Dimethicone, Allantoin, Betaine, Sodium Hyaluronate, Glycolic Acid, Azelaic Acid" := by
  refine ⟨by decide, by decide, by decide, by decide⟩

/-! ## Lemmas: burn-rate calibration -/

theorem qmin_le_right (a b : ℚ) : qmin a b ≤ b := by
  unfold qmin
  split
  · assumption
  · exact le_refl b

theorem le_qmax_right (a b : ℚ) : b ≤ qmax a b := by
  unfold qmax
  split
  · exact le_refl b
  · exact le_of_lt (lt_of_not_le (by assumption))

/-- C5: Burn-rate capping — a wash-off product with none of the four
strong-evidence flags is calibrated to at most 0.10, and any product whose
flag set holds a strong-evidence flag is calibrated to at least 0.12. -/
theorem C5_burn_rate_capping (burn_rate : ℚ) (risk_flags : List String) (pname : String) :
    (looks_like_wash_off_product pname = true →
      (["strong_acid", "retinol_high", "benzoyl_peroxide", "high_irritation"].any
          fun f => risk_flags.contains f) = false →
      calibrate_burn_rate burn_rate risk_flags pname ≤ mkRat 10 100) ∧
    ((["strong_acid", "retinol_high", "benzoyl_peroxide", "high_irritation"].any
          fun f => risk_flags.contains f) = true →
      mkRat 12 100 ≤ calibrate_burn_rate burn_rate risk_flags pname) := by
  constructor
  · intro hwash hstrong
    unfold calibrate_burn_rate
    rw [hwash, hstrong]
    simp only [Bool.not_false, Bool.and_self, if_true]
    split
    · exact le_trans (qmin_le_right _ _) (by decide)
    · exact le_trans (qmin_le_right _ _) (by decide)
  · intro hstrong
    unfold calibrate_burn_rate
    rw [hstrong]
    simp only [Bool.not_true, Bool.and_false, Bool.false_eq_true, if_false, if_true]
    exact le_qmax_right _ _

/-- Witness for C5: a cleanser without strong flags is capped at 0.08 and a
strong-acid product is floored at 0.12. -/
theorem C5_burn_rate_capping_witness :
    calibrate_burn_rate (mkRat 9 10) [] "Gentle Foaming Cleanser" ≤ mkRat 10 100 ∧
      mkRat 12 100 ≤ calibrate_burn_rate (mkRat 1 100) ["strong_acid"] "Leave-on Peel" :=
  ⟨(C5_burn_rate_capping (mkRat 9 10) [] "Gentle Foaming Cleanser").1
      (by decide) (by decide),
    (C5_burn_rate_capping (mkRat 1 100) ["strong_acid"] "Leave-on Peel").2 (by decide)⟩

/-! ## Lemmas: dedupe-join -/

theorem dedupeChunks_keys (l : List String) :
    ∀ seen : List String,
      ((dedupeChunks seen l).map norm_lower).Nodup ∧
        ∀ x ∈ (dedupeChunks seen l).map norm_lower, ¬ (seen.contains x = true) := by
  induction l with
  | nil => intro seen; simp [dedupeChunks]
  | cons chunk rest ih =>
    intro seen
    simp only [dedupeChunks]
    split
    · exact ih seen
    · split
      · exact ih seen
      · rename_i hne hseen
        obtain ⟨hnd, hnotin⟩ := ih (seen ++ [norm_lower (pyStrip chunk)])
        constructor
        · simp only [List.map_cons, List.nodup_cons]
          refine ⟨fun hmem => ?_, hnd⟩
          have := hnotin _ hmem
          exact this (List.elem_iff.mpr (List.mem_append.mpr
            (Or.inr (List.mem_singleton_self _))))
        · intro x hx
          simp only [List.map_cons, List.mem_cons] at hx
          rcases hx with rfl | hx
          · exact hseen
          · intro hc
            exact hnotin x hx (List.elem_iff.mpr (List.mem_append.mpr
              (Or.inl (List.elem_iff.mp hc))))

theorem dedupeChunks_sublist (l : List String) :
    ∀ seen : List String, List.Sublist (dedupeChunks seen l) (l.map pyStrip) := by
  induction l with
  | nil => intro seen; simp [dedupeChunks]
  | cons chunk rest ih =>
    intro seen
    simp only [dedupeChunks, List.map_cons]
    split
    · exact List.Sublist.cons _ (ih seen)
    · split
      · exact List.Sublist.cons _ (ih seen)
      · exact List.Sublist.cons₂ _ (ih _)

/-- C7 counterexample to the claim as stated: `_dedupe_join` normalizes
fragments only by accent stripping and lower-casing, so the hyphen variant
"Fragrance-free" is not deduplicated against "fragrance free" and the merged
bucket holds two fragments, not one. -/
theorem C7_dedupe_join_counterexample :
    dedupe_join "fragrance free" "Fragrance-free" = "fragrance free | Fragrance-free" ∧
      (dedupeChunks [] (pySplitOn (clean_text "fragrance free" ++ " | " ++
        clean_text "Fragrance-free") '|')).length = 2 := by
  exact ⟨by decide, by decide⟩

/-- C7 (corrected statement): merging never adds a fragment whose normalized
form (accent-stripped, lower-cased) is already present, keeps the original
insertion order and the verbatim display text of kept fragments; a pure case
variant such as "Fragrance Free" over "fragrance free" is deduplicated to a
single fragment, while the hyphen variant is not. -/
theorem C7_dedupe_join_dedup (existing incoming : String)
    (ha : clean_text existing ≠ "") (hb : clean_text incoming ≠ "") :
    dedupe_join existing incoming =
      joinSep " | " (dedupeChunks []
        (pySplitOn (clean_text existing ++ " | " ++ clean_text incoming) '|')) ∧
    ((dedupeChunks []
        (pySplitOn (clean_text existing ++ " | " ++ clean_text incoming) '|')).map
      norm_lower).Nodup ∧
    List.Sublist
      (dedupeChunks [] (pySplitOn (clean_text existing ++ " | " ++ clean_text incoming) '|'))
      ((pySplitOn (clean_text existing ++ " | " ++ clean_text incoming) '|').map pyStrip) ∧
    dedupe_join "fragrance free" "Fragrance Free" = "fragrance free" := by
  refine ⟨?_, (dedupeChunks_keys _ []).1, dedupeChunks_sublist _ [], by decide⟩
  unfold dedupe_join
  rw [if_neg hb, if_neg ha]

/-- Witness for C7 at a concrete input (case-variant merge). -/
theorem C7_dedupe_join_dedup_witness :
    dedupe_join "fragrance free" "Fragrance Free" =
      joinSep " | " (dedupeChunks []
        (pySplitOn (clean_text "fragrance free" ++ " | " ++ clean_text "Fragrance Free") '|')) ∧
    ((dedupeChunks []
        (pySplitOn (clean_text "fragrance free" ++ " | " ++ clean_text "Fragrance Free") '|')).map
      norm_lower).Nodup ∧
    List.Sublist
      (dedupeChunks [] (pySplitOn (clean_text "fragrance free" ++ " | " ++
        clean_text "Fragrance Free") '|'))
      ((pySplitOn (clean_text "fragrance free" ++ " | " ++
        clean_text "Fragrance Free") '|').map pyStrip) ∧
    dedupe_join "fragrance free" "Fragrance Free" = "fragrance free" :=
  C7_dedupe_join_dedup "fragrance free" "Fragrance Free" (by decide) (by decide)

/-! ## Lemmas: identity keys -/

theorem sep_split_unique :
    ∀ (l1 l2 r1 r2 : List Char), ('|' ∉ l1) → ('|' ∉ l2) →
      l1 ++ '|' :: '|' :: r1 = l2 ++ '|' :: '|' :: r2 → l1 = l2 ∧ r1 = r2 := by
  intro l1
  induction l1 with
  | nil =>
    intro l2 r1 r2 _ h2 heq
    cases l2 with
    | nil => simpa using heq
    | cons c cs =>
      simp only [List.nil_append, List.cons_append, List.cons.injEq] at heq
      exact absurd (heq.1 ▸ List.mem_cons_self c cs) (by simp_all)
  | cons c cs ih =>
    intro l2 r1 r2 h1 h2 heq
    cases l2 with
    | nil =>
      simp only [List.cons_append, List.nil_append, List.cons.injEq] at heq
      exact absurd (heq.1 ▸ List.mem_cons_self c cs) (by simp_all)
    | cons d ds =>
      simp only [List.cons_append, List.cons.injEq] at heq
      obtain ⟨rfl, heq⟩ := heq
      obtain ⟨hl, hr⟩ := ih ds r1 r2 (fun hm => h1 (List.mem_cons_of_mem _ hm))
        (fun hm => h2 (List.mem_cons_of_mem _ hm)) heq
      exact ⟨by rw [hl], hr⟩

/-- C8 counterexample to the claim as stated: `normalize_key` does not
remove pipe characters, so the separator `||` can occur inside a normalized
brand and the identity key is not injective. -/
theorem C8_identity_key_counterexample :
    identity_key "a||b" "c" = identity_key "a" "b||c" ∧
      normalize_key "a||b" ≠ normalize_key "a" ∧
      containsSub (normalize_key "a||b") "||" = true := by
  exact ⟨by decide, by decide, by decide⟩

/-- C8 (corrected statement): the identity key is injective on inputs whose
normalized brands are pipe-free (the normalization never removes `|`, so the
guarantee claimed for all inputs only holds under this restriction). -/
theorem C8_identity_key_injective (b1 n1 b2 n2 : String)
    (h1 : '|' ∉ (normalize_key b1).data) (h2 : '|' ∉ (normalize_key b2).data)
    (heq : identity_key b1 n1 = identity_key b2 n2) :
    normalize_key b1 = normalize_key b2 ∧ normalize_key n1 = normalize_key n2 := by
  have hdata : (identity_key b1 n1).data = (identity_key b2 n2).data := by rw [heq]
  unfold identity_key at hdata
  simp only [String.data_append] at hdata
  simp only [List.append_assoc, List.cons_append, List.nil_append] at hdata
  obtain ⟨hb, hn⟩ := sep_split_unique _ _ _ _ h1 h2 (by simpa using hdata)
  exact ⟨String.ext hb, String.ext hn⟩

/-- Witness for C8 on pipe-free concrete brands. -/
theorem C8_identity_key_injective_witness :
    normalize_key "  LANCOME" = normalize_key "Lancome" ∧
      normalize_key "Serum  X" = normalize_key "serum x" :=
  C8_identity_key_injective "  LANCOME" "Serum  X" "Lancome" "serum x"
    (by decide) (by decide) (by decide)

/-! ## Lemmas: fuzzy matcher -/

/-- C6: Fuzzy acceptance boundary — with at least one brand-key match and no
exact name-variant match, the highest-scoring candidate is rejected as
`low_confidence` exactly below 0.55 and returned as `fuzzy` with its score
as confidence at or above 0.55. -/
theorem C6_fuzzy_acceptance_boundary (sources : List SourceItem) (brand name : String)
    (score : ℚ) (s : SourceItem)
    (hcand : sources.filter (fun t => t.brand_key = canonical_brand_key brand) ≠ [])
    (hexact : exactPhase
      (sources.filter fun t => t.brand_key = canonical_brand_key brand) name = none)
    (hfuzzy : fuzzyBest
      (sources.filter fun t => t.brand_key = canonical_brand_key brand) name
        = some (score, s)) :
    (score < mkRat 55 100 →
      best_match sources brand name = (none, "low_confidence", score)) ∧
    (mkRat 55 100 ≤ score →
      best_match sources brand name = (some s, "fuzzy", score)) := by
  unfold best_match
  rw [if_neg hcand, hexact, hfuzzy]
  constructor
  · intro h
    simp only [if_pos h]
  · intro h
    simp only [if_neg (not_lt.mpr h)]

/-- Witness for C6 at a concrete pool: "Hydra Boost Water Gel" against the
stored "Hydra Boost" scores Jaccard 1/2 plus the 0.15 substring bonus,
landing at 0.65 ≥ 0.55, so the candidate is returned as `fuzzy`. -/
theorem C6_fuzzy_acceptance_boundary_witness :
    best_match
      [⟨"Acme", "Hydra Boost", "acme", "hydra boost", "Water", none, [], none, none, "t.json"⟩]
      "Acme" "Hydra Boost Water Gel"
      = (some ⟨"Acme", "Hydra Boost", "acme", "hydra boost", "Water", none, [], none, none,
          "t.json"⟩, "fuzzy", mkRat 13 20) :=
  (C6_fuzzy_acceptance_boundary
    [⟨"Acme", "Hydra Boost", "acme", "hydra boost", "Water", none, [], none, none, "t.json"⟩]
    "Acme" "Hydra Boost Water Gel" (mkRat 13 20)
    ⟨"Acme", "Hydra Boost", "acme", "hydra boost", "Water", none, [], none, none, "t.json"⟩
    (by decide) (by decide) (by decide)).2 (by decide)

/-! ## Lemmas: crosswalk upsert -/

theorem find?_map_pres {α : Type} (p : α → Bool) (f : α → α)
    (hp : ∀ x, p (f x) = p x) :
    ∀ l : List α, List.find? p (l.map f) = (List.find? p l).map f := by
  intro l
  induction l with
  | nil => rfl
  | cons a as ih =>
    simp only [List.map_cons, List.find?]
    rw [hp a]
    cases hpa : p a
    · simpa using ih
    · rfl

theorem filter_not_map_pres {α : Type} (p : α → Bool) (f : α → α)
    (hp : ∀ x, p (f x) = p x) (hid : ∀ x, p x = false → f x = x) :
    ∀ l : List α, (l.map f).filter (fun q => !p q) = l.filter (fun q => !p q) := by
  intro l
  induction l with
  | nil => rfl
  | cons a as ih =>
    simp only [List.map_cons, List.filter]
    rw [hp a]
    cases hpa : p a
    · simp only [Bool.not_false]
      rw [hid a hpa, ih]
    · simpa using ih

/-- C3: Crosswalk conflict refusal — when the triple already maps to product
`A`, an incoming claim for `B ≠ A` writes nothing (the table, hence the
mapping with its confidence and metadata, is unchanged) and the conflict is
reported with both product ids; a claim for `A` itself counts as upserted,
reports no conflict, updates the stored mapping's ref/confidence/metadata,
and leaves every row outside the triple untouched. -/
theorem C3_crosswalk_conflict_refusal (table : List CwRow) (A B : Nat)
    (sys typ ref norm : String) (conf : Nat) (meta : CwMeta) (r : CwRow)
    (hfind : table.find? (cwTripleMatches sys typ norm) = some r)
    (hA : r.productId = A) :
    (B ≠ A →
      upsertCwStep table B sys typ ref norm conf meta = (table, false, some (A, B))) ∧
    ((upsertCwStep table A sys typ ref norm conf meta).2.1 = true ∧
      (upsertCwStep table A sys typ ref norm conf meta).2.2 = none ∧
      (upsertCwStep table A sys typ ref norm conf meta).1.find?
          (cwTripleMatches sys typ norm)
        = some { r with external_ref := ref, confidence := conf, metadata := meta } ∧
      (upsertCwStep table A sys typ ref norm conf meta).1.filter
          (fun q => !cwTripleMatches sys typ norm q)
        = table.filter fun q => !cwTripleMatches sys typ norm q) := by
  have hmatch : cwTripleMatches sys typ norm r = true := List.find?_some hfind
  have hpres : ∀ q : CwRow,
      cwTripleMatches sys typ norm
        (if cwTripleMatches sys typ norm q then
          { q with external_ref := ref, confidence := conf, metadata := meta } else q)
      = cwTripleMatches sys typ norm q := by
    intro q
    by_cases hq : cwTripleMatches sys typ norm q = true
    · rw [if_pos hq, hq]
      simp only [cwTripleMatches] at hq ⊢
      exact hq
    · rw [if_neg hq]
  constructor
  · intro hne
    have hcond : ¬ (r.productId = B) := by
      rw [hA]
      exact fun h => hne h.symm
    simp only [upsertCwStep, hfind]
    rw [if_neg hcond, hA]
  · simp only [upsertCwStep, hfind, hA, eq_self_iff_true, if_true]
    refine ⟨trivial, trivial, ?_, ?_⟩
    · rw [find?_map_pres _ _ hpres, hfind]
      simp [hmatch, hA]
    · exact filter_not_map_pres _ _ hpres (fun x hx => by rw [if_neg (by simp [hx])]) table

/-- Witness for C3: an existing `merchant/source_ref_url` mapping of
`brand.com/p/1` to product 1 refuses an incoming claim for product 2 and
reports both ids. -/
theorem C3_crosswalk_conflict_refusal_witness :
    upsertCwStep
      [⟨1, "merchant", "source_ref_url", "https://brand.com/p/1", "brand.com/p/1", 85,
        ⟨"manual_review_csv", 0⟩⟩]
      2 "merchant" "source_ref_url" "https://brand.com/p/1/" "brand.com/p/1" 85
      ⟨"manual_review_csv", 7⟩
      = ([⟨1, "merchant", "source_ref_url", "https://brand.com/p/1", "brand.com/p/1", 85,
          ⟨"manual_review_csv", 0⟩⟩], false, some (1, 2)) :=
  (C3_crosswalk_conflict_refusal
    [⟨1, "merchant", "source_ref_url", "https://brand.com/p/1", "brand.com/p/1", 85,
      ⟨"manual_review_csv", 0⟩⟩]
    1 2 "merchant" "source_ref_url" "https://brand.com/p/1/" "brand.com/p/1" 85
    ⟨"manual_review_csv", 7⟩
    ⟨1, "merchant", "source_ref_url", "https://brand.com/p/1", "brand.com/p/1", 85,
      ⟨"manual_review_csv", 0⟩⟩
    (by decide) (by decide)).1 (by decide)

/-! ## Lemmas: tokenizer adjacency -/

theorem hasAdjP_iff (p : Char → Bool) (l : List Char) :
    hasAdjP p l = true ↔
      ∃ c c' l1 l2, l = l1 ++ c :: c' :: l2 ∧ p c = true ∧ p c' = true := by
  induction l with
  | nil =>
    simp only [hasAdjP]
    constructor
    · intro h; exact absurd h (by simp)
    · rintro ⟨c, c', l1, l2, h, _, _⟩
      exact absurd h (by simp)
  | cons a tail ih =>
    cases tail with
    | nil =>
      simp only [hasAdjP]
      constructor
      · intro h; exact absurd h (by simp)
      · rintro ⟨c, c', l1, l2, h, _, _⟩
        cases l1 with
        | nil => simp at h
        | cons d ds => simp at h
    | cons b rest =>
      simp only [hasAdjP, Bool.or_eq_true, Bool.and_eq_true]
      rw [ih]
      constructor
      · rintro (⟨hpa, hpb⟩ | ⟨c, c', l1, l2, h, hc, hc'⟩)
        · exact ⟨a, b, [], rest, rfl, hpa, hpb⟩
        · exact ⟨c, c', a :: l1, l2, by rw [h]; rfl, hc, hc'⟩
      · rintro ⟨c, c', l1, l2, h, hc, hc'⟩
        cases l1 with
        | nil =>
          simp only [List.nil_append, List.cons.injEq] at h
          obtain ⟨rfl, rfl, _⟩ := h
          exact Or.inl ⟨hc, hc'⟩
        | cons d ds =>
          simp only [List.cons_append, List.cons.injEq] at h
          exact Or.inr ⟨c, c', ds, l2, h.2, hc, hc'⟩

theorem hasAdjP_append_left {p : Char → Bool} {l m : List Char}
    (h : hasAdjP p m = true) : hasAdjP p (l ++ m) = true := by
  rw [hasAdjP_iff] at h ⊢
  obtain ⟨c, c', l1, l2, rfl, hc, hc'⟩ := h
  exact ⟨c, c', l ++ l1, l2, by simp, hc, hc'⟩

theorem hasAdjP_append_right {p : Char → Bool} {l m : List Char}
    (h : hasAdjP p l = true) : hasAdjP p (l ++ m) = true := by
  rw [hasAdjP_iff] at h ⊢
  obtain ⟨c, c', l1, l2, rfl, hc, hc'⟩ := h
  exact ⟨c, c', l1, l2 ++ m, by simp, hc, hc'⟩

theorem hasAdjP_cons {p : Char → Bool} {c : Char} {l : List Char}
    (h : hasAdjP p l = true) : hasAdjP p (c :: l) = true :=
  hasAdjP_append_left (l := [c]) h

theorem hasAdjP_reverse {p : Char → Bool} {l : List Char}
    (h : hasAdjP p l.reverse = true) : hasAdjP p l = true := by
  rw [hasAdjP_iff] at h
  obtain ⟨c, c', l1, l2, hrev, hc, hc'⟩ := h
  rw [hasAdjP_iff]
  refine ⟨c', c, l2.reverse, l1.reverse, ?_, hc', hc⟩
  have := congrArg List.reverse hrev
  simpa using this

theorem hasAdjP_of_dropWhile {p q : Char → Bool} {l : List Char}
    (h : hasAdjP p (l.dropWhile q) = true) : hasAdjP p l = true := by
  obtain ⟨t, ht⟩ := List.dropWhile_suffix (l := l) q
  rw [← ht]
  exact hasAdjP_append_left h

theorem hasAdjP_of_pyStripL {p : Char → Bool} {l : List Char}
    (h : hasAdjP p (pyStripL l) = true) : hasAdjP p l = true := by
  unfold pyStripL stripLeadL at h
  exact hasAdjP_of_dropWhile (hasAdjP_reverse (hasAdjP_of_dropWhile (hasAdjP_reverse h)))

theorem hasAdjP_map {p : Char → Bool} {f : Char → Char} :
    ∀ l : List Char, hasAdjP p (l.map f) = hasAdjP (fun c => p (f c)) l := by
  intro l
  induction l with
  | nil => rfl
  | cons a tail ih =>
    cases tail with
    | nil => rfl
    | cons b rest =>
      simp only [List.map_cons, hasAdjP]
      rw [← List.map_cons, ih]

theorem splitRunsAux_long_run {cur : List Char} (h : 2 ≤ cur.length) :
    ∀ l : List Char, (splitRunsAux cur l).filter (fun r => 2 ≤ r.length) ≠ [] := by
  intro l
  induction l generalizing cur with
  | nil =>
    have hne : cur ≠ [] := by
      intro hc; rw [hc] at h; simp at h
    simp only [splitRunsAux, if_neg hne]
    simp [List.filter, h, decide_eq_true_eq]
  | cons c rest ih =>
    simp only [splitRunsAux]
    split
    · exact ih (by simp; omega)
    · have hne : cur ≠ [] := by
        intro hc; rw [hc] at h; simp at h
      rw [if_neg hne]
      simp only [List.filter]
      have h2 : (2 ≤ cur.reverse.length) := by simpa using h
      rw [decide_eq_true h2]
      simp

theorem splitRunsAux_adj {l : List Char} (hadj : hasAdjP isLowerAlnum l = true) :
    ∀ cur : List Char, (splitRunsAux cur l).filter (fun r => 2 ≤ r.length) ≠ [] := by
  induction l with
  | nil => simp [hasAdjP] at hadj
  | cons a tail ih =>
    intro cur
    cases tail with
    | nil => simp [hasAdjP] at hadj
    | cons b rest =>
      simp only [hasAdjP, Bool.or_eq_true, Bool.and_eq_true] at hadj
      rcases hadj with ⟨hpa, hpb⟩ | hadj
      · simp only [splitRunsAux, if_pos hpa]
        simp only [splitRunsAux, if_pos hpb]
        exact splitRunsAux_long_run (by simp) rest
      · simp only [splitRunsAux]
        split
        · exact ih hadj _
        · split
          · exact ih hadj _
          · rename_i hcur
            simp only [List.filter]
            split
            · simp
            · exact ih hadj _

theorem splitRunsAux_no_adj {l : List Char} :
    ∀ cur : List Char, hasAdjP isLowerAlnum l = false → cur.length ≤ 1 →
      (cur ≠ [] → ∀ d ∈ l.head?, isLowerAlnum d = false) →
      (splitRunsAux cur l).filter (fun r => 2 ≤ r.length) = [] := by
  induction l with
  | nil =>
    intro cur _ hlen _
    simp only [splitRunsAux]
    split
    · rfl
    · simp only [List.filter]
      have : ¬ (2 ≤ cur.reverse.length) := by simp; omega
      rw [decide_eq_false this]
  | cons c rest ih =>
    intro cur hadj hlen hhead
    have hadj_rest : hasAdjP isLowerAlnum rest = false := by
      cases rest with
      | nil => rfl
      | cons b r2 =>
        simp only [hasAdjP, Bool.or_eq_false_iff] at hadj
        exact hadj.2
    simp only [splitRunsAux]
    split
    · rename_i hc
      have hcur : cur = [] := by
        cases hcur : cur with
        | nil => rfl
        | cons x xs =>
          exact absurd hc (by simp [hhead (by simp [hcur]) c rfl])
      subst hcur
      refine ih [c] hadj_rest (by simp) ?_
      intro _ d hd
      cases rest with
      | nil => simp at hd
      | cons b r2 =>
        simp only [List.head?_cons, Option.mem_some_iff] at hd
        subst hd
        simp only [hasAdjP, Bool.or_eq_false_iff, Bool.and_eq_false_iff] at hadj
        rcases hadj.1 with h | h
        · exact absurd hc (by simp [h])
        · exact h
    · split
      · exact ih [] hadj_rest (by simp) (by simp)
      · simp only [List.filter]
        have : ¬ (2 ≤ cur.reverse.length) := by simp; omega
        rw [decide_eq_false this]
        exact ih [] hadj_rest (by simp) (by simp)

theorem tokenize_prep_eq (s : String) :
    ((((pyStripL s.data).map deaccentChar).map lcChar).map
        fun c => if c = '+' then ' ' else c)
      = (pyStripL s.data).map tokPrep := by
  rw [List.map_map, List.map_map]
  refine List.map_congr_left fun c _ => ?_
  simp [Function.comp, tokPrep]

theorem tokenize_empty_iff (s : String) :
    _tokenize s = [] ↔ hasAdjP pAl (pyStripL s.data) = false := by
  unfold _tokenize splitRuns
  simp only [tokenize_prep_eq, List.map_eq_nil_iff]
  constructor
  · intro h
    by_contra hadj
    rw [Bool.not_eq_false] at hadj
    have hadj2 : hasAdjP isLowerAlnum ((pyStripL s.data).map tokPrep) = true := by
      rw [hasAdjP_map]
      exact hadj
    exact splitRunsAux_adj hadj2 [] h
  · intro h
    refine splitRunsAux_no_adj [] ?_ (by simp) (by simp)
    rw [hasAdjP_map]
    exact h

theorem stripParensAux_head_not_pAl :
    ∀ (l pend : List Char) (x : Char), pend.getLast? = some '(' →
      (stripParensAux pend l).head? = some x → pAl x = false := by
  intro l
  induction l with
  | nil =>
    intro pend x hlast hhead
    simp only [stripParensAux, List.head?_reverse] at hhead
    rw [hlast] at hhead
    obtain rfl : '(' = x := by simpa using hhead
    decide
  | cons c rest ih =>
    intro pend x hlast hhead
    cases pend with
    | nil => simp at hlast
    | cons d ds =>
      simp only [stripParensAux] at hhead
      split at hhead
      · obtain rfl : ' ' = x := by simpa using hhead
        decide
      · refine ih (c :: d :: ds) x ?_ hhead
        rw [List.getLast?_cons_cons]
        exact hlast

theorem stripParensAux_adj :
    ∀ (l pend : List Char), (pend ≠ [] → pend.getLast? = some '(') →
      hasAdjP pAl (stripParensAux pend l) = true →
      hasAdjP pAl (pend.reverse ++ l) = true := by
  intro l
  induction l with
  | nil =>
    intro pend _ h
    simpa using h
  | cons c rest ih =>
    intro pend hpend h
    cases pend with
    | nil =>
      simp only [stripParensAux] at h
      split at h
      · rename_i hc
        subst hc
        have := ih ['('] (fun _ => rfl) h
        simpa using this
      · simp only [List.reverse_nil, List.nil_append]
        cases hM : stripParensAux [] rest with
        | nil =>
          rw [hM] at h
          simp [hasAdjP] at h
        | cons m0 ms =>
          rw [hM] at h
          simp only [hasAdjP, Bool.or_eq_true, Bool.and_eq_true] at h
          rcases h with ⟨hpc, hpm⟩ | h
          · cases rest with
            | nil => simp [stripParensAux] at hM
            | cons d rest2 =>
              by_cases hd : d = '('
              · subst hd
                have hm0 : pAl m0 = false := by
                  refine stripParensAux_head_not_pAl rest2 ['('] m0 rfl ?_
                  simp only [stripParensAux, if_true] at hM
                  rw [hM]
                  rfl
                rw [hm0] at hpm
                exact absurd hpm (by simp)
              · simp only [stripParensAux, if_neg hd] at hM
                have hdm : d = m0 := by
                  have := congrArg List.head? hM
                  simpa using this
                subst hdm
                simp [hasAdjP, hpc, hpm]
          · have := ih [] (by simp) (by rw [hM]; exact h)
            simp only [List.reverse_nil, List.nil_append] at this
            exact hasAdjP_cons this
    | cons d ds =>
      simp only [stripParensAux] at h
      split at h
      · rename_i hc
        subst hc
        cases hM : stripParensAux [] rest with
        | nil =>
          rw [hM] at h
          simp [hasAdjP] at h
        | cons m0 ms =>
          rw [hM] at h
          simp only [hasAdjP] at h
          have hsp : pAl ' ' = false := by decide
          rw [hsp] at h
          simp only [Bool.false_and, Bool.false_or] at h
          have := ih [] (by simp) (by rw [hM]; exact h)
          simp only [List.reverse_nil, List.nil_append] at this
          exact hasAdjP_append_left (hasAdjP_cons this)
      · have := ih (c :: d :: ds)
          (fun _ => by rw [List.getLast?_cons_cons]; exact hpend (by simp)) h
        simp only [List.reverse_cons, List.append_assoc] at this ⊢
        simpa using this

theorem dropWhile_keeps_head :
    ∀ (l1 tail : List Char) (c : Char), isWsChar c = false →
      ∃ l1', (l1 ++ c :: tail).dropWhile isWsChar = l1' ++ c :: tail := by
  intro l1
  induction l1 with
  | nil =>
    intro tail c hc
    refine ⟨[], ?_⟩
    simp [List.dropWhile, hc]
  | cons d ds ih =>
    intro tail c hc
    simp only [List.cons_append, List.dropWhile]
    cases hd : isWsChar d
    · exact ⟨d :: ds, rfl⟩
    · exact ih tail c hc

theorem pyStripL_keeps_pair {l1 l2 : List Char} {c c' : Char}
    (hc : isWsChar c = false) (hc' : isWsChar c' = false) :
    ∃ m1 m2, pyStripL (l1 ++ c :: c' :: l2) = m1 ++ c :: c' :: m2 := by
  unfold pyStripL stripLeadL
  obtain ⟨a1, ha⟩ := dropWhile_keeps_head l1 (c' :: l2) c hc
  rw [ha]
  have hrev : (a1 ++ c :: c' :: l2).reverse = (l2.reverse ++ [c']) ++ c :: a1.reverse := by
    simp
  rw [hrev]
  obtain ⟨b1, hb⟩ := dropWhile_keeps_head (l2.reverse) (c :: a1.reverse) c' hc'
  rw [show (l2.reverse ++ [c']) ++ c :: a1.reverse
    = l2.reverse ++ c' :: c :: a1.reverse by simp, hb]
  exact ⟨a1.reverse.reverse, b1.reverse, by simp⟩

theorem hasAdjP_pyStripL_of_pair {l1 l2 : List Char} {c c' : Char} {l : List Char}
    (hl : l = l1 ++ c :: c' :: l2) (hc : pAl c = true) (hc' : pAl c' = true)
    (hwc : isWsChar c = false) (hwc' : isWsChar c' = false) :
    hasAdjP pAl (pyStripL l) = true := by
  subst hl
  obtain ⟨m1, m2, hm⟩ := pyStripL_keeps_pair hwc hwc'
  rw [hm, hasAdjP_iff]
  exact ⟨c, c', m1, m2, rfl, hc, hc'⟩

theorem listIsPref_decomp :
    ∀ (needle l : List Char), listIsPref needle l = true → ∃ r, l = needle ++ r := by
  intro needle
  induction needle with
  | nil => intro l _; exact ⟨l, rfl⟩
  | cons p ps ih =>
    intro l h
    cases l with
    | nil => simp [listIsPref] at h
    | cons c cs =>
      simp only [listIsPref, Bool.and_eq_true, decide_eq_true_eq] at h
      obtain ⟨rfl, h2⟩ := h
      obtain ⟨r, hr⟩ := ih cs h2
      exact ⟨r, by rw [hr]; rfl⟩

theorem containsSubL_decomp :
    ∀ (hay needle : List Char), containsSubL needle hay = true →
      ∃ l1 l2, hay = l1 ++ needle ++ l2 := by
  intro hay
  induction hay with
  | nil =>
    intro needle h
    simp only [containsSubL] at h
    obtain ⟨r, hr⟩ := listIsPref_decomp needle [] h
    exact ⟨[], r, by simpa using hr⟩
  | cons c rest ih =>
    intro needle h
    simp only [containsSubL, Bool.or_eq_true] at h
    rcases h with h | h
    · obtain ⟨r, hr⟩ := listIsPref_decomp needle (c :: rest) h
      exact ⟨[], r, by simpa using hr⟩
    · obtain ⟨l1, l2, hl⟩ := ih needle h
      exact ⟨c :: l1, l2, by rw [hl]; rfl⟩

theorem map_pair_decomp {f : Char → Char} :
    ∀ (l l1 l2 : List Char) (a b : Char), l.map f = l1 ++ a :: b :: l2 →
      ∃ m1 x y m2, l = m1 ++ x :: y :: m2 ∧ f x = a ∧ f y = b := by
  intro l l1
  induction l1 generalizing l with
  | nil =>
    intro l2 a b h
    cases l with
    | nil => simp at h
    | cons x l' =>
      cases l' with
      | nil => simp at h
      | cons y l'' =>
        simp only [List.map_cons, List.nil_append, List.cons.injEq] at h
        exact ⟨[], x, y, l'', by simp, h.1, h.2.1⟩
  | cons d ds ih =>
    intro l2 a b h
    cases l with
    | nil => simp at h
    | cons x l' =>
      simp only [List.map_cons, List.cons_append, List.cons.injEq] at h
      obtain ⟨m1, x', y', m2, hl, hx, hy⟩ := ih l' l2 a b h.2
      exact ⟨x :: m1, x', y', m2, by rw [hl]; rfl, hx, hy⟩

theorem charOfToNat {x c : Char} (h : x.toNat = c.toNat) : x = c :=
  Char.ext (UInt32.ext h)

theorem lcChar_cases (x c : Char) (h : lcChar x = c) :
    x = c ∨ ('A' ≤ x ∧ x ≤ 'Z' ∧ x.toNat + 32 = c.toNat) := by
  unfold lcChar at h
  split at h
  · rename_i hb
    refine Or.inr ⟨hb.1, hb.2, ?_⟩
    rw [← h]
    have hlt : x.toNat + 32 < 55296 := by
      have : x.toNat ≤ 90 := hb.2
      omega
    unfold Char.ofNat
    split
    · rfl
    · rename_i hv
      exact absurd (Or.inl hlt) hv
  · exact Or.inl h

theorem pAl_of_lcChar {x c C : Char} (hC : C.toNat + 32 = c.toNat)
    (hpc : pAl c = true) (hpC : pAl C = true) (h : lcChar x = c) : pAl x = true := by
  rcases lcChar_cases x c h with rfl | ⟨_, _, h3⟩
  · exact hpc
  · have hx : x = C := charOfToNat (by omega)
    rw [hx]
    exact hpC

theorem pAl_of_lcChar_digit {x c : Char} (hsmall : c.toNat < 97)
    (hpc : pAl c = true) (h : lcChar x = c) : pAl x = true := by
  rcases lcChar_cases x c h with rfl | ⟨hA, _, h3⟩
  · exact hpc
  · have h65 : (65 : Nat) ≤ x.toNat := hA
    omega

theorem pAl_not_ws {c : Char} (h : pAl c = true) : isWsChar c = false := by
  by_contra hw
  rw [Bool.not_eq_false] at hw
  simp only [isWsChar, decide_eq_true_eq] at hw
  rcases hw with rfl | rfl | rfl | rfl | rfl | rfl <;> exact absurd h (by decide)

theorem hasAdjP_pyStripL_intro {l : List Char}
    (h : hasAdjP pAl l = true) : hasAdjP pAl (pyStripL l) = true := by
  rw [hasAdjP_iff] at h
  obtain ⟨c, c', l1, l2, hl, hc, hc'⟩ := h
  exact hasAdjP_pyStripL_of_pair hl hc hc' (pAl_not_ws hc) (pAl_not_ws hc')

theorem guard_false_raw (name : String) (hname : _tokenize name = [])
    (n1 n2 : List Char) (c c' : Char) (needle : String)
    (hn : needle.data = n1 ++ c :: c' :: n2)
    (hc : pAl c = true) (hc' : pAl c' = true) :
    containsSub (pyStrip name) needle = false := by
  by_contra hcon
  rw [Bool.not_eq_false] at hcon
  unfold containsSub at hcon
  obtain ⟨l1, l2, hdec⟩ := containsSubL_decomp _ _ hcon
  rw [hn] at hdec
  have hshape : pyStripL name.data = (l1 ++ n1) ++ c :: c' :: (n2 ++ l2) := by
    have : (pyStrip name).data = pyStripL name.data := rfl
    rw [← this, hdec]
    simp
  have hadj : hasAdjP pAl (pyStripL name.data) = true := by
    rw [hasAdjP_iff]
    exact ⟨c, c', l1 ++ n1, n2 ++ l2, hshape, hc, hc'⟩
  rw [tokenize_empty_iff] at hname
  rw [hname] at hadj
  exact absurd hadj (by simp)

theorem guard_false_lower (name : String) (hname : _tokenize name = [])
    (n1 n2 : List Char) (c c' : Char) (needle : String)
    (hn : needle.data = n1 ++ c :: c' :: n2)
    (hlift : ∀ x y : Char, lcChar x = c → lcChar y = c' → pAl x = true ∧ pAl y = true) :
    containsSub (pyLower (pyStrip name)) needle = false := by
  by_contra hcon
  rw [Bool.not_eq_false] at hcon
  unfold containsSub at hcon
  obtain ⟨l1, l2, hdec⟩ := containsSubL_decomp _ _ hcon
  rw [hn] at hdec
  have hmap : (pyStripL name.data).map lcChar = l1 ++ n1 ++ (c :: c' :: (n2 ++ l2)) := by
    have : (pyLower (pyStrip name)).data = (pyStripL name.data).map lcChar := rfl
    rw [← this, hdec]
    simp
  obtain ⟨m1, x, y, m2, hsplit, hx, hy⟩ :=
    map_pair_decomp (pyStripL name.data) (l1 ++ n1) (n2 ++ l2) c c' (by rw [hmap])
  obtain ⟨hpx, hpy⟩ := hlift x y hx hy
  have hadj : hasAdjP pAl (pyStripL name.data) = true := by
    rw [hasAdjP_iff]
    exact ⟨x, y, m1, m2, hsplit, hpx, hpy⟩
  rw [tokenize_empty_iff] at hname
  rw [hname] at hadj
  exact absurd hadj (by simp)

theorem adj_false_down {m : List Char} (h : hasAdjP pAl m = false) :
    hasAdjP pAl (pyStripL m) = false := by
  by_contra hc
  rw [Bool.not_eq_false] at hc
  rw [hasAdjP_of_pyStripL hc] at h
  exact absurd h (by simp)

theorem adj_false_parens {m : List Char} (h : hasAdjP pAl m = false) :
    hasAdjP pAl (stripParensAux [] m) = false := by
  by_contra hc
  rw [Bool.not_eq_false] at hc
  have := stripParensAux_adj m [] (by simp) hc
  simp only [List.reverse_nil, List.nil_append] at this
  rw [this] at h
  exact absurd h (by simp)

theorem canonical_name_key_empty (v : String)
    (h : hasAdjP pAl (pyStripL (stripParensAux [] (pyStripL v.data))) = false) :
    canonical_name_key v = "" := by
  have htok : _tokenize (stripParens (pyStrip v)) = [] := by
    rw [tokenize_empty_iff]
    exact h
  simp only [canonical_name_key, htok, List.filter_nil, joinSep]
  rfl

theorem dedupCandidates_subset {x : String} :
    ∀ (l seen : List String), x ∈ dedupCandidates seen l → x ∈ l := by
  intro l
  induction l with
  | nil => intro seen h; simp [dedupCandidates] at h
  | cons v rest ih =>
    intro seen h
    simp only [dedupCandidates] at h
    split at h
    · split at h
      · exact List.mem_cons_of_mem _ (ih seen h)
      · rcases List.mem_cons.mp h with rfl | h
        · exact List.mem_cons_self _ _
        · exact List.mem_cons_of_mem _ (ih _ h)
    · split at h
      · exact List.mem_cons_of_mem _ (ih seen h)
      · rcases List.mem_cons.mp h with rfl | h
        · exact List.mem_cons_self _ _
        · exact List.mem_cons_of_mem _ (ih _ h)

theorem generate_candidates_of_empty (name : String) (hname : _tokenize name = []) :
    ∀ v ∈ generate_name_candidates name,
      v = pyStrip name ∨ v = pyStrip (stripParens (pyStrip name)) := by
  intro v hv
  unfold generate_name_candidates at hv
  by_cases hraw : pyStrip name = ""
  · rw [if_pos hraw] at hv
    simp at hv
  · rw [if_neg hraw] at hv
    have g1 : containsSub (pyStrip name) "B5+" = false :=
      guard_false_raw name hname [] ['+'] 'B' '5' "B5+" (by decide) (by decide) (by decide)
    have g2 : containsSub (pyLower (pyStrip name)) "b5+" = false :=
      guard_false_lower name hname [] ['+'] 'b' '5' "b5+" (by decide)
        (fun x y hx hy =>
          ⟨pAl_of_lcChar (C := 'B') (by decide) (by decide) (by decide) hx,
           pAl_of_lcChar_digit (by decide) (by decide) hy⟩)
    have g3 : containsSub (pyStrip name) "AP+M" = false :=
      guard_false_raw name hname [] ['+', 'M'] 'A' 'P' "AP+M"
        (by decide) (by decide) (by decide)
    have g4 : containsSub (pyLower (pyStrip name)) "ap+m" = false :=
      guard_false_lower name hname [] ['+', 'm'] 'a' 'p' "ap+m" (by decide)
        (fun x y hx hy =>
          ⟨pAl_of_lcChar (C := 'A') (by decide) (by decide) (by decide) hx,
           pAl_of_lcChar (C := 'P') (by decide) (by decide) (by decide) hy⟩)
    have g5 : containsSub (pyLower (pyStrip name)) "triple repair" = false :=
      guard_false_lower name hname []
        ['i', 'p', 'l', 'e', ' ', 'r', 'e', 'p', 'a', 'i', 'r'] 't' 'r'
        "triple repair" (by decide)
        (fun x y hx hy =>
          ⟨pAl_of_lcChar (C := 'T') (by decide) (by decide) (by decide) hx,
           pAl_of_lcChar (C := 'R') (by decide) (by decide) (by decide) hy⟩)
    have g6 : containsSub (pyLower (pyStrip name)) "mineral 89" = false :=
      guard_false_lower name hname []
        ['n', 'e', 'r', 'a', 'l', ' ', '8', '9'] 'm' 'i' "mineral 89" (by decide)
        (fun x y hx hy =>
          ⟨pAl_of_lcChar (C := 'M') (by decide) (by decide) (by decide) hx,
           pAl_of_lcChar (C := 'I') (by decide) (by decide) (by decide) hy⟩)
    have g7 : containsSub (pyLower (pyStrip name)) "minéral 89" = false :=
      guard_false_lower name hname []
        ['n', 'é', 'r', 'a', 'l', ' ', '8', '9'] 'm' 'i' "minéral 89" (by decide)
        (fun x y hx hy =>
          ⟨pAl_of_lcChar (C := 'M') (by decide) (by decide) (by decide) hx,
           pAl_of_lcChar (C := 'I') (by decide) (by decide) (by decide) hy⟩)
    rw [g1, g2, g3, g4, g5, g6, g7] at hv
    simp only [Bool.or_self, Bool.false_eq_true, if_false, List.append_nil] at hv
    have hv2 := dedupCandidates_subset _ _ (List.mem_of_mem_take hv)
    rcases List.mem_append.mp hv2 with h | h
    · exact Or.inl (List.mem_singleton.mp h)
    · split at h
      · exact Or.inr (List.mem_singleton.mp h)
      · exact absurd h (List.not_mem_nil v)

theorem exactPhase_none_of_empty (pool : List SourceItem) (name : String)
    (hname : _tokenize name = []) : exactPhase pool name = none := by
  have hbase : hasAdjP pAl (pyStripL name.data) = false :=
    (tokenize_empty_iff name).mp hname
  unfold exactPhase
  rw [List.findSome?_eq_none_iff]
  intro v hv
  have hkey : canonical_name_key v = "" := by
    rcases generate_candidates_of_empty name hname v hv with rfl | rfl
    · refine canonical_name_key_empty _ ?_
      show hasAdjP pAl
        (pyStripL (stripParensAux [] (pyStripL (pyStripL name.data)))) = false
      exact adj_false_down (adj_false_parens (adj_false_down hbase))
    · refine canonical_name_key_empty _ ?_
      show hasAdjP pAl (pyStripL (stripParensAux []
        (pyStripL (pyStripL (stripParensAux [] (pyStripL name.data)))))) = false
      exact adj_false_down (adj_false_parens (adj_false_down
        (adj_false_down (adj_false_parens hbase))))
  simp [hkey]

theorem qmin_le_left (a b : ℚ) : qmin a b ≤ a := by
  unfold qmin
  split
  · exact le_refl a
  · exact le_of_lt (lt_of_not_le (by assumption))

theorem jaccard_le_one (a b : List String) : jaccard a b ≤ 1 := by
  simp only [jaccard]
  split
  · exact le_refl 1
  · split
    · exact zero_le_one
    · rw [Rat.mkRat_eq_div]
      rename_i hboth hnone
      have hcard : (a.toFinset ∩ b.toFinset).card ≤ max 1 (a.toFinset ∪ b.toFinset).card :=
        le_trans (Finset.card_le_card fun x hx =>
          Finset.mem_union_left _ (Finset.mem_inter.mp hx).1) (le_max_right _ _)
      have hpos : (0 : ℚ) < ((max 1 (a.toFinset ∪ b.toFinset).card : ℕ) : ℚ) := by
        have : 1 ≤ max 1 (a.toFinset ∪ b.toFinset).card := le_max_left _ _
        exact_mod_cast lt_of_lt_of_le zero_lt_one (by exact_mod_cast this)
      rw [div_le_one hpos]
      exact_mod_cast hcard

theorem scoreOf_le_one (name : String) (s : SourceItem) : scoreOf name s ≤ 1 := by
  simp only [scoreOf]
  split
  · exact qmin_le_left _ _
  · exact jaccard_le_one _ _

theorem scoreOf_one_of_empty {name : String} {s : SourceItem}
    (hw : _tokenize (stripParens name) = []) (hg : _tokenize (stripParens s.name) = []) :
    scoreOf name s = 1 := by
  simp only [scoreOf]
  rw [hw, hg]
  split
  · decide
  · decide

theorem scoreOf_one_inv {name : String} {s : SourceItem}
    (hw : _tokenize (stripParens name) = []) (h1 : scoreOf name s = 1) :
    _tokenize (stripParens s.name) = [] := by
  by_contra hne
  have hj : jaccard (_tokenize (stripParens name)) (_tokenize (stripParens s.name)) = 0 := by
    rw [hw]
    simp only [jaccard]
    rw [if_neg, if_pos]
    · exact Or.inl (by simp)
    · rintro ⟨_, h2⟩
      rw [List.toFinset_eq_empty_iff] at h2
      exact hne h2
  simp only [scoreOf] at h1
  rw [hj] at h1
  split at h1
  · exact absurd h1 (by decide)
  · exact absurd h1 (by decide)

theorem fuzzyBestAux_spec (name : String) :
    ∀ (l : List SourceItem) (b0 : ℚ) (s0 : SourceItem),
      ∃ b s, fuzzyBestAux name (some (b0, s0)) l = some (b, s) ∧
        ((b = b0 ∧ s = s0) ∨ (s ∈ l ∧ scoreOf name s = b)) ∧ b0 ≤ b ∧
        ∀ c ∈ l, scoreOf name c ≤ b := by
  intro l
  induction l with
  | nil =>
    intro b0 s0
    exact ⟨b0, s0, rfl, Or.inl ⟨rfl, rfl⟩, le_refl _, by simp⟩
  | cons a rest ih =>
    intro b0 s0
    by_cases hlt : b0 < scoreOf name a
    · obtain ⟨b, s, heq, hor, hle, hall⟩ := ih (scoreOf name a) a
      refine ⟨b, s, ?_, ?_, ?_, ?_⟩
      · simp only [fuzzyBestAux, if_pos hlt]
        exact heq
      · rcases hor with ⟨rfl, rfl⟩ | ⟨hmem, hsc⟩
        · exact Or.inr ⟨List.mem_cons_self _ _, rfl⟩
        · exact Or.inr ⟨List.mem_cons_of_mem _ hmem, hsc⟩
      · exact le_of_lt (lt_of_lt_of_le hlt hle)
      · intro c hc
        rcases List.mem_cons.mp hc with rfl | hc
        · exact hle
        · exact hall c hc
    · obtain ⟨b, s, heq, hor, hle, hall⟩ := ih b0 s0
      refine ⟨b, s, ?_, ?_, hle, ?_⟩
      · simp only [fuzzyBestAux, if_neg hlt]
        exact heq
      · rcases hor with ⟨rfl, rfl⟩ | ⟨hmem, hsc⟩
        · exact Or.inl ⟨rfl, rfl⟩
        · exact Or.inr ⟨List.mem_cons_of_mem _ hmem, hsc⟩
      · intro c hc
        rcases List.mem_cons.mp hc with rfl | hc
        · exact le_trans (le_of_not_lt hlt) hle
        · exact hall c hc

theorem fuzzyBest_spec (name : String) (c : SourceItem) (rest : List SourceItem) :
    ∃ b s, fuzzyBest (c :: rest) name = some (b, s) ∧
      s ∈ c :: rest ∧ scoreOf name s = b ∧ ∀ x ∈ c :: rest, scoreOf name x ≤ b := by
  obtain ⟨b, s, heq, hor, hle, hall⟩ := fuzzyBestAux_spec name rest (scoreOf name c) c
  refine ⟨b, s, ?_, ?_, ?_, ?_⟩
  · unfold fuzzyBest
    simp only [fuzzyBestAux]
    exact heq
  · rcases hor with ⟨_, rfl⟩ | ⟨hmem, _⟩
    · exact List.mem_cons_self _ _
    · exact List.mem_cons_of_mem _ hmem
  · rcases hor with ⟨rfl, rfl⟩ | ⟨_, hsc⟩
    · rfl
    · exact hsc
  · intro x hx
    rcases List.mem_cons.mp hx with rfl | hx
    · exact hle
    · exact hall x hx

/-- C10: Empty-token similarity edge case — `jaccard` treats two empty token
sets as perfectly similar, so when the incoming name and a brand-matched
candidate's name both tokenize to nothing, `best_match` returns a candidate
with empty tokenization as a `fuzzy` match at full confidence 1.0 instead of
treating the empty normalization as "no signal". -/
theorem C10_empty_tokens_full_confidence (sources : List SourceItem) (brand name : String)
    (s : SourceItem) (hs : s ∈ sources) (hbk : s.brand_key = canonical_brand_key brand)
    (hname : _tokenize name = []) (hsname : _tokenize s.name = []) :
    jaccard [] [] = 1 ∧
      ∃ s2, _tokenize (stripParens s2.name) = [] ∧
        best_match sources brand name = (some s2, "fuzzy", 1) := by
  refine ⟨by decide, ?_⟩
  have hbase : hasAdjP pAl (pyStripL name.data) = false :=
    (tokenize_empty_iff name).mp hname
  have hsc : s ∈ sources.filter fun t => t.brand_key = canonical_brand_key brand :=
    List.mem_filter.mpr ⟨hs, by simp [hbk]⟩
  have hne : (sources.filter fun t => t.brand_key = canonical_brand_key brand) ≠ [] :=
    List.ne_nil_of_mem hsc
  have hwant : _tokenize (stripParens name) = [] := by
    rw [tokenize_empty_iff]
    by_contra hc
    rw [Bool.not_eq_false] at hc
    have h1 : hasAdjP pAl (stripParensAux [] name.data) = true := hasAdjP_of_pyStripL hc
    have h2 := stripParensAux_adj name.data [] (by simp) h1
    simp only [List.reverse_nil, List.nil_append] at h2
    have h3 := hasAdjP_pyStripL_intro h2
    rw [hbase] at h3
    exact absurd h3 (by simp)
  have hgot : _tokenize (stripParens s.name) = [] := by
    rw [tokenize_empty_iff]
    by_contra hc
    rw [Bool.not_eq_false] at hc
    have h1 : hasAdjP pAl (stripParensAux [] s.name.data) = true := hasAdjP_of_pyStripL hc
    have h2 := stripParensAux_adj s.name.data [] (by simp) h1
    simp only [List.reverse_nil, List.nil_append] at h2
    have h3 := hasAdjP_pyStripL_intro h2
    rw [(tokenize_empty_iff s.name).mp hsname] at h3
    exact absurd h3 (by simp)
  obtain ⟨c, rest, hcr⟩ :=
    List.exists_cons_of_ne_nil hne
  obtain ⟨b, s2, hfb, hmem, hscore, hall⟩ := fuzzyBest_spec name c rest
  have hs1 : scoreOf name s = 1 := scoreOf_one_of_empty hwant hgot
  have hble : b ≤ 1 := by
    rw [← hscore]
    exact scoreOf_le_one name s2
  have h1b : (1 : ℚ) ≤ b := by
    rw [← hs1]
    refine hall s ?_
    rw [← hcr]
    exact hsc
  have hb : b = 1 := le_antisymm hble h1b
  have hs2tok : _tokenize (stripParens s2.name) = [] :=
    scoreOf_one_inv hwant (by rw [hscore, hb])
  refine ⟨s2, hs2tok, ?_⟩
  unfold best_match
  rw [if_neg hne, exactPhase_none_of_empty _ _ hname, hcr, hfb, hb]
  simp only [if_neg (by decide : ¬ ((1 : ℚ) < mkRat 55 100))]

/-- Witness for C10: the incoming name "+" and the stored name "+~+" both
tokenize to nothing, and the matcher returns the candidate as `fuzzy` with
confidence 1. -/
theorem C10_empty_tokens_full_confidence_witness :
    jaccard [] [] = 1 ∧
      ∃ s2, _tokenize (stripParens s2.name) = [] ∧
        best_match
          [⟨"Acme", "+~+", "acme", "", "Water", none, [], none, none, "t.json"⟩]
          "Acme" "+"
          = (some s2, "fuzzy", 1) :=
  C10_empty_tokens_full_confidence
    [⟨"Acme", "+~+", "acme", "", "Water", none, [], none, none, "t.json"⟩]
    "Acme" "+"
    ⟨"Acme", "+~+", "acme", "", "Water", none, [], none, none, "t.json"⟩
    (by decide) (by decide) (by decide) (by decide)

/-! ## Lemmas: ingestion idempotence -/

theorem hasTriple_find? {table : List CwRow} {sys typ norm : String}
    (h : HasTriple table (sys, typ, norm)) :
    (table.find? (cwTripleMatches sys typ norm)).isSome := by
  rw [List.find?_isSome]
  obtain ⟨r, hmem, h1, h2, h3⟩ := h
  exact ⟨r, hmem, by simp [cwTripleMatches, h1, h2, h3]⟩

theorem upsertCwStep_preserves_triples {table : List CwRow} {pid : Nat}
    {sys typ ref norm : String} {conf : Nat} {meta : CwMeta} {t : String × String × String}
    (h : HasTriple table t) :
    HasTriple (upsertCwStep table pid sys typ ref norm conf meta).1 t := by
  obtain ⟨r, hmem, h1, h2, h3⟩ := h
  cases hf : table.find? (cwTripleMatches sys typ norm) with
  | none =>
    simp only [upsertCwStep, hf]
    exact ⟨r, List.mem_append.mpr (Or.inl hmem), h1, h2, h3⟩
  | some q =>
    simp only [upsertCwStep, hf]
    by_cases hpid : q.productId = pid
    · rw [if_pos hpid]
      refine ⟨if cwTripleMatches sys typ norm r then
        { r with external_ref := ref, confidence := conf, metadata := meta } else r,
        List.mem_map.mpr ⟨r, hmem, rfl⟩, ?_⟩
      split
      · exact ⟨h1, h2, h3⟩
      · exact ⟨h1, h2, h3⟩
    · rw [if_neg hpid]
      exact ⟨r, hmem, h1, h2, h3⟩

theorem upsertCwStep_adds_triple (table : List CwRow) (pid : Nat)
    (sys typ ref norm : String) (conf : Nat) (meta : CwMeta) :
    HasTriple (upsertCwStep table pid sys typ ref norm conf meta).1 (sys, typ, norm) := by
  cases hf : table.find? (cwTripleMatches sys typ norm) with
  | none =>
    simp only [upsertCwStep, hf]
    exact ⟨⟨pid, sys, typ, ref, norm, conf, meta⟩,
      List.mem_append.mpr (Or.inr (List.mem_singleton_self _)), rfl, rfl, rfl⟩
  | some q =>
    simp only [upsertCwStep, hf]
    have hq := List.find?_some hf
    have hqmem := List.mem_of_find?_eq_some hf
    simp only [cwTripleMatches, Bool.and_eq_true, decide_eq_true_eq] at hq
    by_cases hpid : q.productId = pid
    · rw [if_pos hpid]
      refine ⟨if cwTripleMatches sys typ norm q then
        { q with external_ref := ref, confidence := conf, metadata := meta } else q,
        List.mem_map.mpr ⟨q, hqmem, rfl⟩, ?_⟩
      split
      · exact ⟨hq.1, hq.2.1, hq.2.2⟩
      · exact ⟨hq.1, hq.2.1, hq.2.2⟩
    · rw [if_neg hpid]
      exact ⟨q, hqmem, hq.1, hq.2.1, hq.2.2⟩

theorem upsertCwStep_len_of_present {table : List CwRow} {pid : Nat}
    {sys typ ref norm : String} {conf : Nat} {meta : CwMeta}
    (h : HasTriple table (sys, typ, norm)) :
    (upsertCwStep table pid sys typ ref norm conf meta).1.length = table.length := by
  cases hf : table.find? (cwTripleMatches sys typ norm) with
  | none =>
    have := hasTriple_find? h
    rw [hf] at this
    exact absurd this (by simp)
  | some q =>
    simp only [upsertCwStep, hf]
    by_cases hpid : q.productId = pid
    · rw [if_pos hpid]
      simp
    · rw [if_neg hpid]

theorem cwLoop_triples (pid : Nat) :
    ∀ (refs : List (String × String × String × Nat × CwMeta)) (table : List CwRow)
      (seen : List (String × String × String)) (t : String × String × String),
      HasTriple table t → HasTriple (cwLoop pid table seen refs).1 t := by
  intro refs
  induction refs with
  | nil => intro table seen t h; exact h
  | cons e rest ih =>
    intro table seen t h
    obtain ⟨sys, typ, ref, conf, meta⟩ := e
    simp only [cwLoop]
    split
    · exact ih table seen t h
    · split
      · exact ih table seen t h
      · exact ih _ _ t (upsertCwStep_preserves_triples h)

theorem cwLoop_establishes (pid : Nat) :
    ∀ (refs : List (String × String × String × Nat × CwMeta)) (table : List CwRow)
      (seen : List (String × String × String)),
      (∀ t ∈ seen, HasTriple table t) →
      ∀ sys typ ref conf meta, (sys, typ, ref, conf, meta) ∈ refs →
        normalize_crosswalk_ref_by_type typ ref ≠ "" →
        HasTriple (cwLoop pid table seen refs).1
          (sys, typ, normalize_crosswalk_ref_by_type typ ref) := by
  intro refs
  induction refs with
  | nil =>
    intro table seen _ sys typ ref conf meta hmem _
    exact absurd hmem (List.not_mem_nil _)
  | cons e rest ih =>
    intro table seen hseen sys typ ref conf meta hmem hnorm
    obtain ⟨sys0, typ0, ref0, conf0, meta0⟩ := e
    rcases List.mem_cons.mp hmem with he | hmem2
    · simp only [Prod.mk.injEq] at he
      obtain ⟨rfl, rfl, rfl, rfl, rfl⟩ := he
      simp only [cwLoop]
      split
      · exact absurd (by assumption) hnorm
      · split
        · rename_i hzero hc
          exact cwLoop_triples pid rest table seen _ (hseen _ (List.elem_iff.mp hc))
        · exact cwLoop_triples pid rest _ _ _ (upsertCwStep_adds_triple table pid _ _ _ _ _ _)
    · simp only [cwLoop]
      split
      · exact ih table seen hseen sys typ ref conf meta hmem2 hnorm
      · split
        · exact ih table seen hseen sys typ ref conf meta hmem2 hnorm
        · refine ih _ _ ?_ sys typ ref conf meta hmem2 hnorm
          intro t ht
          rcases List.mem_append.mp ht with hold | hnew
          · exact upsertCwStep_preserves_triples (hseen t hold)
          · rcases List.mem_singleton.mp hnew with rfl
            exact upsertCwStep_adds_triple table pid _ _ _ _ _ _

theorem cwLoop_len (pid : Nat) :
    ∀ (refs : List (String × String × String × Nat × CwMeta)) (table : List CwRow)
      (seen : List (String × String × String)),
      (∀ sys typ ref conf meta, (sys, typ, ref, conf, meta) ∈ refs →
        normalize_crosswalk_ref_by_type typ ref ≠ "" →
        HasTriple table (sys, typ, normalize_crosswalk_ref_by_type typ ref)) →
      (cwLoop pid table seen refs).1.length = table.length := by
  intro refs
  induction refs with
  | nil => intro table seen _; rfl
  | cons e rest ih =>
    intro table seen hall
    obtain ⟨sys0, typ0, ref0, conf0, meta0⟩ := e
    simp only [cwLoop]
    split
    · exact ih table seen fun s t r c m hm => hall s t r c m (List.mem_cons_of_mem _ hm)
    · split
      · exact ih table seen fun s t r c m hm => hall s t r c m (List.mem_cons_of_mem _ hm)
      · rename_i hzero _
        have hpres : HasTriple table
            (sys0, typ0, normalize_crosswalk_ref_by_type typ0 ref0) :=
          hall sys0 typ0 ref0 conf0 meta0 (List.mem_cons_self _ _) hzero
        rw [ih _ _ fun s t r c m hm hn =>
          upsertCwStep_preserves_triples (hall s t r c m (List.mem_cons_of_mem _ hm) hn)]
        exact upsertCwStep_len_of_present hpres

theorem opt_map_or {α β : Type} (f : α → β) (a b : Option α) :
    (a.or b).map f = (a.map f).or (b.map f) := by
  cases a <;> rfl

theorem idxLookup_append (idx : ProductIndex) (k k' : String) (v : Nat × List String) :
    idxLookup (idx ++ [(k, v)]) k' =
      (idxLookup idx k').or (if k = k' then some v else none) := by
  unfold idxLookup
  rw [List.find?_append, opt_map_or]
  congr 1
  by_cases hk : k = k'
  · subst hk
    simp [List.find?]
  · simp [List.find?, hk]

theorem idxAssign_lookup (idx : ProductIndex) (k k' : String) (v : Nat × List String) :
    idxLookup (idxAssign idx k v) k' = if k' = k then some v else idxLookup idx k' := by
  have hp : ∀ (K : String) (e : String × Nat × List String),
      (decide ((if e.1 = k then ((k, v) : String × Nat × List String) else e).1 = K)) =
        decide (e.1 = K) := by
    intro K e
    by_cases h : e.1 = k
    · simp [h]
    · simp [h]
  unfold idxAssign
  split
  · rename_i hs
    by_cases hk : k' = k
    · subst hk
      rw [if_pos rfl]
      obtain ⟨e0, he0⟩ := Option.isSome_iff_exists.mp hs
      unfold idxLookup
      rw [find?_map_pres _ _ (hp k'), he0]
      have he1 : e0.1 = k' := by
        have := List.find?_some he0
        exact of_decide_eq_true this
      simp [he1]
    · rw [if_neg hk]
      unfold idxLookup
      rw [find?_map_pres _ _ (hp k')]
      cases hf : idx.find? fun e => decide (e.1 = k') with
      | none => rfl
      | some e1 =>
        have hd := List.find?_some hf
        have he1 : e1.1 = k' := of_decide_eq_true hd
        have : e1.1 ≠ k := fun hc => hk (he1 ▸ hc)
        simp [this]
  · rename_i hs
    rw [idxLookup_append]
    have hnone : idxLookup idx k = none := by
      unfold idxLookup
      rw [Option.not_isSome_iff_eq_none.mp hs]
      rfl
    by_cases hk : k' = k
    · subst hk
      rw [if_pos rfl, if_pos rfl, hnone]
      rfl
    · rw [if_neg hk, if_neg fun hc => hk hc.symm]
      exact Option.or_none

theorem loadProductAux_lookup :
    ∀ (ps : List ProductRow) (idx : ProductIndex) (k : String),
      idxLookup (loadProductAux idx ps) k =
        (idxLookup idx k).or
          ((ps.find? fun p => productRowKey p = k).map fun p => (p.id, p.regions)) := by
  intro ps
  induction ps with
  | nil =>
    intro idx k
    simp only [loadProductAux, List.find?, Option.map_none', Option.or_none]
  | cons p rest ih =>
    intro idx k
    simp only [loadProductAux]
    rw [ih]
    split
    · rename_i hs
      by_cases hk : productRowKey p = k
      · have hsk : (idxLookup idx k).isSome := by
          unfold idxLookup
          rw [Option.isSome_map']
          rw [hk] at hs
          exact hs
        obtain ⟨w, hw⟩ := Option.isSome_iff_exists.mp hsk
        rw [hw]
        rfl
      · simp only [List.find?]
        rw [decide_eq_false hk]
    · rw [idxLookup_append, Option.or_assoc]
      congr 1
      by_cases hk : productRowKey p = k
      · simp [List.find?, hk]
      · simp [List.find?, hk]

theorem load_product_index_lookup (ps : List ProductRow) (k : String) :
    idxLookup (load_product_index ps) k =
      (ps.find? fun p => productRowKey p = k).map fun p => (p.id, p.regions) := by
  unfold load_product_index
  rw [loadProductAux_lookup]
  rfl

theorem load_product_index_ok (hr : Bool) (ps : List ProductRow) :
    IdxOk hr (load_product_index ps) ps := by
  constructor
  · intro k
    rw [load_product_index_lookup, Option.map_map]
    rfl
  · intro _ k
    exact load_product_index_lookup ps k

theorem ingIdxLookup_append (idx : IngIndex) (k k' : Nat) (v : Nat × List String) :
    ingIdxLookup (idx ++ [(k, v)]) k' =
      (ingIdxLookup idx k').or (if k = k' then some v else none) := by
  unfold ingIdxLookup
  rw [List.find?_append, opt_map_or]
  congr 1
  by_cases hk : k = k'
  · subst hk
    simp [List.find?]
  · simp [List.find?, hk]

theorem ingIdxAssign_lookup (idx : IngIndex) (k k' : Nat) (v : Nat × List String) :
    ingIdxLookup (ingIdxAssign idx k v) k' = if k' = k then some v else ingIdxLookup idx k' := by
  have hp : ∀ (K : Nat) (e : Nat × Nat × List String),
      (decide ((if e.1 = k then ((k, v) : Nat × Nat × List String) else e).1 = K)) =
        decide (e.1 = K) := by
    intro K e
    by_cases h : e.1 = k
    · simp [h]
    · simp [h]
  unfold ingIdxAssign
  split
  · rename_i hs
    by_cases hk : k' = k
    · subst hk
      rw [if_pos rfl]
      obtain ⟨e0, he0⟩ := Option.isSome_iff_exists.mp hs
      unfold ingIdxLookup
      rw [find?_map_pres _ _ (hp k'), he0]
      have hd := List.find?_some he0
      have he1 : e0.1 = k' := of_decide_eq_true hd
      simp [he1]
    · rw [if_neg hk]
      unfold ingIdxLookup
      rw [find?_map_pres _ _ (hp k')]
      cases hf : idx.find? fun e => decide (e.1 = k') with
      | none => rfl
      | some e1 =>
        have hd := List.find?_some hf
        have he1 : e1.1 = k' := of_decide_eq_true hd
        have : e1.1 ≠ k := fun hc => hk (he1 ▸ hc)
        simp [this]
  · rename_i hs
    rw [ingIdxLookup_append]
    have hnone : ingIdxLookup idx k = none := by
      unfold ingIdxLookup
      rw [Option.not_isSome_iff_eq_none.mp hs]
      rfl
    by_cases hk : k' = k
    · subst hk
      rw [if_pos rfl, if_pos rfl, hnone]
      rfl
    · rw [if_neg hk, if_neg fun hc => hk hc.symm]
      exact Option.or_none

theorem loadIngAux_lookup :
    ∀ (ings : List IngredientsRow) (idx : IngIndex) (pid : Nat),
      ((ings.map fun r => r.productId).Nodup) →
      (∀ r ∈ ings, (idx.find? fun e => e.1 = r.productId) = none) →
      ingIdxLookup (loadIngAux idx ings) pid =
        (ingIdxLookup idx pid).or
          ((ings.find? fun r => r.productId = pid).map fun r => (r.id, r.full_list)) := by
  intro ings
  induction ings with
  | nil =>
    intro idx pid _ _
    simp only [loadIngAux, List.find?, Option.map_none', Option.or_none]
  | cons r rest ih =>
    intro idx pid hnd hfresh
    simp only [List.map_cons, List.nodup_cons] at hnd
    have hnone := hfresh r (List.mem_cons_self _ _)
    have hassign : ingIdxAssign idx r.productId (r.id, r.full_list) =
        idx ++ [(r.productId, r.id, r.full_list)] := by
      unfold ingIdxAssign
      rw [hnone]
      rfl
    simp only [loadIngAux]
    rw [hassign, ih _ pid hnd.2 ?later]
    case later =>
      intro s hs
      rw [List.find?_append, hfresh s (List.mem_cons_of_mem _ hs)]
      have hne : r.productId ≠ s.productId := fun hc =>
        hnd.1 (hc ▸ List.mem_map.mpr ⟨s, hs, rfl⟩)
      have hd : decide (r.productId = s.productId) = false := decide_eq_false hne
      simp [List.find?, hd]
    rw [ingIdxLookup_append, Option.or_assoc]
    congr 1
    by_cases hk : r.productId = pid
    · simp [List.find?, hk]
    · simp [List.find?, hk]

theorem load_ingredient_index_ok (ings : List IngredientsRow)
    (hnd : (ings.map fun r => r.productId).Nodup) :
    IngIdxOk (load_ingredient_index ings) ings := by
  intro pid
  unfold load_ingredient_index
  rw [loadIngAux_lookup ings [] pid hnd fun r _ => rfl]
  rfl

theorem mem_pyDedupAux {x : String} :
    ∀ {l seen : List String}, x ∈ pyDedupAux seen l ↔ x ∈ l ∧ x ∉ seen := by
  intro l
  induction l with
  | nil => intro seen; simp [pyDedupAux]
  | cons a as ih =>
    intro seen
    simp only [pyDedupAux]
    split
    · rename_i hc
      rw [ih]
      constructor
      · rintro ⟨h1, h2⟩
        exact ⟨List.mem_cons_of_mem _ h1, h2⟩
      · rintro ⟨h1, h2⟩
        rcases List.mem_cons.mp h1 with rfl | h1p
        · exact absurd (List.elem_iff.mp hc) h2
        · exact ⟨h1p, h2⟩
    · rename_i hc
      have hna : a ∉ seen := fun hmem => hc (List.elem_iff.mpr hmem)
      constructor
      · intro hm
        rcases List.mem_cons.mp hm with rfl | hmp
        · exact ⟨List.mem_cons_self _ _, hna⟩
        · obtain ⟨h1, h2⟩ := ih.mp hmp
          exact ⟨List.mem_cons_of_mem _ h1,
            fun hs => h2 (List.mem_append.mpr (Or.inl hs))⟩
      · rintro ⟨h1, h2⟩
        rcases List.mem_cons.mp h1 with rfl | h1p
        · exact List.mem_cons_self _ _
        · by_cases hxa : x = a
          · subst hxa
            exact List.mem_cons_self _ _
          · refine List.mem_cons_of_mem _ (ih.mpr ⟨h1p, fun hs => ?_⟩)
            rcases List.mem_append.mp hs with h | h
            · exact h2 h
            · exact hxa (List.mem_singleton.mp h)

theorem mem_pyDedup {x : String} {l : List String} : x ∈ pyDedup l ↔ x ∈ l := by
  unfold pyDedup
  rw [mem_pyDedupAux]
  simp

theorem mem_sortedRegionSet {x : String} {xs : List String} :
    x ∈ sortedRegionSet xs ↔ x ∈ xs ∧ x ≠ "" := by
  unfold sortedRegionSet
  rw [List.mem_mergeSort, mem_pyDedup, List.mem_filter]
  simp

theorem prodPhase_run1 (hr : Bool) (st : DbState) (pidx : ProductIndex) (row : CsvIngestRow)
    (hg : GoodState st) (hio : IdxOk hr pidx st.products) :
    GoodState (prodPhase hr st pidx row).1 ∧
    IdxOk hr (prodPhase hr st pidx row).2.1 (prodPhase hr st pidx row).1.products ∧
    (∃ p, ((prodPhase hr st pidx row).1.products.find?
        fun q => productRowKey q = identity_key row.brand row.name) = some p ∧
      p.id = (prodPhase hr st pidx row).2.2.1 ∧
      (hr = true → row.market ≠ "" → row.market ∈ p.regions)) ∧
    (∀ k', k' ≠ identity_key row.brand row.name →
      ((prodPhase hr st pidx row).1.products.find? fun q => productRowKey q = k') =
        (st.products.find? fun q => productRowKey q = k')) ∧
    (prodPhase hr st pidx row).1.ingredients = st.ingredients ∧
    (prodPhase hr st pidx row).1.crosswalks = st.crosswalks ∧
    st.nextId ≤ (prodPhase hr st pidx row).1.nextId ∧
    (∀ p' ∈ st.products, productRowKey p' ≠ identity_key row.brand row.name →
      p'.id ≠ (prodPhase hr st pidx row).2.2.1) := by
  obtain ⟨hgid, hgb, hgi1, hgi2, hgi3⟩ := hg
  cases hL : idxLookup pidx (identity_key row.brand row.name) with
  | none =>
    have hfnone : (st.products.find?
        fun q => productRowKey q = identity_key row.brand row.name) = none := by
      have h1 := hio.1 (identity_key row.brand row.name)
      rw [hL] at h1
      exact Option.map_eq_none'.mp h1.symm
    have hnewkey : productRowKey
        (⟨st.nextId, row.brand, row.name,
          if hr = true then (if row.market ≠ "" then [row.market] else []) else []⟩ :
          ProductRow) = identity_key row.brand row.name := rfl
    simp only [prodPhase, hL]
    have hfind : ∀ k, ((st.products ++
        [(⟨st.nextId, row.brand, row.name,
          if hr = true then (if row.market ≠ "" then [row.market] else []) else []⟩ :
          ProductRow)]).find? fun q => productRowKey q = k) =
        ((st.products.find? fun q => productRowKey q = k).or
          (if identity_key row.brand row.name = k then
            some (⟨st.nextId, row.brand, row.name,
              if hr = true then (if row.market ≠ "" then [row.market] else []) else []⟩ :
              ProductRow) else none)) := by
      intro k
      rw [List.find?_append]
      congr 1
      by_cases hk : identity_key row.brand row.name = k
      · have hd : decide (productRowKey
            (⟨st.nextId, row.brand, row.name,
              if hr = true then (if row.market ≠ "" then [row.market] else []) else []⟩ :
              ProductRow) = k) = true := decide_eq_true (hnewkey.trans hk)
        simp only [List.find?, hd]
        rw [if_pos hk]
      · have hd : decide (productRowKey
            (⟨st.nextId, row.brand, row.name,
              if hr = true then (if row.market ≠ "" then [row.market] else []) else []⟩ :
              ProductRow) = k) = false :=
          decide_eq_false fun h => hk (hnewkey.symm.trans h)
        simp only [List.find?, hd]
        rw [if_neg hk]
    refine ⟨⟨?_, ?_, hgi1, hgi2, ?_⟩, ⟨?_, ?_⟩,
      ⟨⟨st.nextId, row.brand, row.name,
        if hr = true then (if row.market ≠ "" then [row.market] else []) else []⟩,
        ?_, rfl, ?_⟩,
      ?_, True.intro, True.intro, Nat.le_succ _, ?_⟩
    · rw [List.map_append]
      refine List.Nodup.append hgid (List.nodup_singleton _) ?_
      intro a ha hb
      rcases List.mem_map.mp ha with ⟨p0, hp0, hp3⟩
      rcases List.mem_map.mp hb with ⟨p, hp1, hp2⟩
      rw [List.mem_singleton] at hp1
      have hlt := hgb p0 hp0
      rw [hp3] at hlt
      rw [← hp2, hp1] at hlt
      exact absurd hlt (lt_irrefl _)
    · intro p hp
      rcases List.mem_append.mp hp with h | h
      · exact Nat.lt_succ_of_lt (hgb p h)
      · rw [List.mem_singleton] at h
        rw [h]
        exact Nat.lt_succ_self _
    · intro r hrr
      exact Nat.lt_succ_of_lt (hgi3 r hrr)
    · intro k
      rw [idxAssign_lookup, hfind]
      by_cases hk : k = identity_key row.brand row.name
      · rw [if_pos hk, hk, hfnone, if_pos rfl]
        rfl
      · rw [if_neg hk, if_neg fun h => hk h.symm, Option.or_none]
        exact hio.1 k
    · intro hhr k
      rw [idxAssign_lookup, hfind]
      by_cases hk : k = identity_key row.brand row.name
      · rw [if_pos hk, hk, hfnone, if_pos rfl]
        subst hhr
        rfl
      · rw [if_neg hk, if_neg fun h => hk h.symm, Option.or_none]
        exact hio.2 hhr k
    · rw [hfind, hfnone, if_pos rfl]
      rfl
    · intro hhr hmkt
      subst hhr
      simp only [if_pos rfl, if_pos hmkt]
      exact List.mem_singleton_self _
    · intro k' hk'
      rw [hfind, if_neg fun h => hk' h.symm, Option.or_none]
    · intro p' hp' _
      exact Nat.ne_of_lt (hgb p' hp')
  | some pair =>
    obtain ⟨product_id, known⟩ := pair
    have hq1 : ((st.products.find?
        fun q => productRowKey q = identity_key row.brand row.name).map fun p => p.id) =
          some product_id := by
      have h1 := hio.1 (identity_key row.brand row.name)
      rw [hL] at h1
      exact h1.symm
    obtain ⟨q, hq, hqid⟩ : ∃ q, (st.products.find?
        fun p => productRowKey p = identity_key row.brand row.name) = some q ∧
          q.id = product_id := by
      cases hf : st.products.find?
          fun p => productRowKey p = identity_key row.brand row.name with
      | none => rw [hf] at hq1; exact absurd hq1 (by simp)
      | some q =>
        rw [hf] at hq1
        exact ⟨q, rfl, Option.some_injective _ hq1⟩
    have hqmem : q ∈ st.products := List.mem_of_find?_eq_some hq
    have hqd := List.find?_some hq
    have hqkey : productRowKey q = identity_key row.brand row.name :=
      of_decide_eq_true hqd
    have hinj : ∀ p' ∈ st.products, productRowKey p' ≠ identity_key row.brand row.name →
        p'.id ≠ product_id := by
      intro p' hp' hk hid
      exact hk ((List.inj_on_of_nodup_map hgid hp' hqmem (hid.trans hqid.symm)) ▸ hqkey)
    simp only [prodPhase, hL]
    split
    · rename_i hcond
      obtain ⟨hhr, hmkt, hncont⟩ := hcond
      have hregs : known = q.regions := by
        have h2 := hio.2 hhr (identity_key row.brand row.name)
        rw [hL, hq] at h2
        exact (Prod.mk.injEq .. ▸ Option.some_injective _ h2).2
      have hkeypres : ∀ p : ProductRow,
          productRowKey (if p.id = product_id then
            { p with regions := sortedRegionSet (known ++ [row.market]) } else p) =
            productRowKey p := by
        intro p
        split <;> rfl
      have hidpres : ∀ p : ProductRow,
          (if p.id = product_id then
            { p with regions := sortedRegionSet (known ++ [row.market]) } else p).id = p.id := by
        intro p
        split <;> rfl
      have hfmap : ∀ k, ((st.products.map fun p => if p.id = product_id then
            { p with regions := sortedRegionSet (known ++ [row.market]) } else p).find?
          fun p => productRowKey p = k) =
          ((st.products.find? fun p => productRowKey p = k).map fun p =>
            if p.id = product_id then
              { p with regions := sortedRegionSet (known ++ [row.market]) } else p) :=
        fun k => find?_map_pres _ _ (fun p => by rw [hkeypres]) st.products
      have hfother : ∀ k', k' ≠ identity_key row.brand row.name →
          ((st.products.map fun p => if p.id = product_id then
              { p with regions := sortedRegionSet (known ++ [row.market]) } else p).find?
            fun p => productRowKey p = k') =
            (st.products.find? fun p => productRowKey p = k') := by
        intro k' hk'
        rw [hfmap]
        cases hf : st.products.find? fun p => productRowKey p = k' with
        | none => rfl
        | some p' =>
          have hp'mem := List.mem_of_find?_eq_some hf
          have hp'd := List.find?_some hf
          have hp'key : productRowKey p' = k' := of_decide_eq_true hp'd
          have : p'.id ≠ product_id := hinj p' hp'mem (hp'key ▸ hk')
          simp only [Option.map_some']
          rw [if_neg this]
      refine ⟨⟨?_, ?_, hgi1, hgi2, hgi3⟩, ⟨?_, ?_⟩,
        ⟨if q.id = product_id then
            { q with regions := sortedRegionSet (known ++ [row.market]) } else q,
          ?_, ?_, ?_⟩,
        hfother, ?_, ?_, ?_, ?_⟩
      · have hcomp : ((fun p : ProductRow => p.id) ∘ fun p => if p.id = product_id then
            { p with regions := sortedRegionSet (known ++ [row.market]) } else p) =
            fun p : ProductRow => p.id := funext fun p => hidpres p
        rw [List.map_map, hcomp]
        exact hgid
      · intro p hp
        obtain ⟨p0, hp0, hpe⟩ := List.mem_map.mp hp
        have : p.id = p0.id := by rw [← hpe]; exact hidpres p0
        rw [this]
        exact hgb p0 hp0
      · intro k
        rw [idxAssign_lookup]
        by_cases hk : k = identity_key row.brand row.name
        · rw [if_pos hk, hk, hfmap, hq]
          simp only [Option.map_some']
          rw [if_pos hqid]
          exact congrArg some hqid.symm
        · rw [if_neg hk, hfother k hk]
          exact hio.1 k
      · intro _ k
        rw [idxAssign_lookup]
        by_cases hk : k = identity_key row.brand row.name
        · rw [if_pos hk, hk, hfmap, hq]
          simp only [Option.map_some']
          rw [if_pos hqid]
          exact congrArg some
            (congrArg (fun n => (n, sortedRegionSet (known ++ [row.market]))) hqid.symm)
        · rw [if_neg hk, hfother k hk]
          exact hio.2 hhr k
      · rw [hfmap, hq]
        simp only [Option.map_some']
      · rw [hidpres]
        exact hqid
      · intro _ _
        rw [if_pos hqid]
        exact mem_sortedRegionSet.mpr
          ⟨List.mem_append.mpr (Or.inr (List.mem_singleton_self _)), hmkt⟩
      · first
        | trivial
        | exact le_refl _
      · first
        | trivial
        | exact le_refl _
      · first
        | trivial
        | exact le_refl _
      · exact hinj
    · rename_i hcond
      have hreg : hr = true → row.market ≠ "" → row.market ∈ q.regions := by
        intro hhr hmkt
        have hcont : known.contains row.market = true := by
          by_contra hc
          exact hcond ⟨hhr, hmkt, fun hb => hc hb⟩
        have h2 := hio.2 hhr (identity_key row.brand row.name)
        rw [hL, hq] at h2
        have hregs : known = q.regions :=
          (Prod.mk.injEq .. ▸ Option.some_injective _ h2).2
        exact hregs ▸ List.elem_iff.mp hcont
      refine ⟨⟨hgid, hgb, hgi1, hgi2, hgi3⟩, hio, ⟨q, hq, hqid, hreg⟩, fun k' _ => rfl,
        ?_, ?_, ?_, hinj⟩
      · first
        | trivial
        | exact le_refl _
      · first
        | trivial
        | exact le_refl _
      · first
        | trivial
        | exact le_refl _

theorem ingPhase_run1 (st : DbState) (iidx : IngIndex) (pid : Nat) (row : CsvIngestRow)
    (hg : GoodState st) (hii : IngIdxOk iidx st.ingredients) :
    GoodState (ingPhase st iidx pid row).1 ∧
    IngIdxOk (ingPhase st iidx pid row).2.1 (ingPhase st iidx pid row).1.ingredients ∧
    (∃ ir, ((ingPhase st iidx pid row).1.ingredients.find?
        fun r => r.productId = pid) = some ir ∧
      ir.full_list = row.ingredient_list) ∧
    (∀ pid', pid' ≠ pid →
      ((ingPhase st iidx pid row).1.ingredients.find? fun r => r.productId = pid') =
        (st.ingredients.find? fun r => r.productId = pid')) ∧
    (ingPhase st iidx pid row).1.products = st.products ∧
    (ingPhase st iidx pid row).1.crosswalks = st.crosswalks ∧
    st.nextId ≤ (ingPhase st iidx pid row).1.nextId := by
  obtain ⟨hgid, hgb, hgi1, hgi2, hgi3⟩ := hg
  cases hL : ingIdxLookup iidx pid with
  | none =>
    have hfnone : (st.ingredients.find? fun r => r.productId = pid) = none := by
      have h1 := hii pid
      rw [hL] at h1
      exact Option.map_eq_none'.mp h1.symm
    have hfrees : ∀ r ∈ st.ingredients, r.productId ≠ pid := by
      intro r hrr h
      exact (List.find?_eq_none.mp hfnone r hrr) (decide_eq_true h)
    have hfind : ∀ k, ((st.ingredients ++
        [(⟨st.nextId, pid, row.ingredient_list⟩ : IngredientsRow)]).find?
          fun r => r.productId = k) =
        ((st.ingredients.find? fun r => r.productId = k).or
          (if pid = k then some (⟨st.nextId, pid, row.ingredient_list⟩ : IngredientsRow)
           else none)) := by
      intro k
      rw [List.find?_append]
      congr 1
      by_cases hk : pid = k
      · have hd : decide ((⟨st.nextId, pid, row.ingredient_list⟩ :
            IngredientsRow).productId = k) = true := decide_eq_true hk
        simp only [List.find?, hd]
        rw [if_pos hk]
      · have hd : decide ((⟨st.nextId, pid, row.ingredient_list⟩ :
            IngredientsRow).productId = k) = false := decide_eq_false hk
        simp only [List.find?, hd]
        rw [if_neg hk]
    simp only [ingPhase, hL]
    refine ⟨⟨hgid, ?_, ?_, ?_, ?_⟩, ?_,
      ⟨⟨st.nextId, pid, row.ingredient_list⟩, ?_, rfl⟩, ?_, ?_, ?_, ?_⟩
    · intro p hp
      exact Nat.lt_succ_of_lt (hgb p hp)
    · rw [List.map_append]
      refine List.Nodup.append hgi1 (List.nodup_singleton _) ?_
      intro a ha hb
      rcases List.mem_map.mp ha with ⟨r0, hr0, hr3⟩
      rcases List.mem_map.mp hb with ⟨r1, hr1, hr2⟩
      rw [List.mem_singleton] at hr1
      subst hr1
      rw [← hr2] at hr3
      exact hfrees r0 hr0 hr3
    · rw [List.map_append]
      refine List.Nodup.append hgi2 (List.nodup_singleton _) ?_
      intro a ha hb
      rcases List.mem_map.mp ha with ⟨r0, hr0, hr3⟩
      rcases List.mem_map.mp hb with ⟨r1, hr1, hr2⟩
      rw [List.mem_singleton] at hr1
      have hlt := hgi3 r0 hr0
      rw [hr3] at hlt
      rw [← hr2, hr1] at hlt
      exact absurd hlt (lt_irrefl _)
    · intro r hrr
      rcases List.mem_append.mp hrr with h | h
      · exact Nat.lt_succ_of_lt (hgi3 r h)
      · rw [List.mem_singleton] at h
        rw [h]
        exact Nat.lt_succ_self _
    · intro k
      rw [ingIdxAssign_lookup, hfind]
      by_cases hk : k = pid
      · rw [if_pos hk, hk, hfnone, if_pos rfl]
        rfl
      · rw [if_neg hk, if_neg fun h => hk h.symm, Option.or_none]
        exact hii k
    · rw [hfind, hfnone, if_pos rfl]
      rfl
    · intro pid' hpid'
      rw [hfind, if_neg fun h => hpid' h.symm, Option.or_none]
    · first
      | trivial
      | exact le_refl _
    · first
      | trivial
      | exact le_refl _
    · first
      | trivial
      | exact Nat.le_succ _
  | some pair =>
    obtain ⟨ing_id, existing⟩ := pair
    have h1 := hii pid
    rw [hL] at h1
    obtain ⟨ir0, hir0, hir0e⟩ : ∃ ir0, (st.ingredients.find?
        fun r => r.productId = pid) = some ir0 ∧ (ir0.id, ir0.full_list) = (ing_id, existing) := by
      cases hf : st.ingredients.find? fun r => r.productId = pid with
      | none => rw [hf] at h1; exact absurd h1 (by simp)
      | some ir0 =>
        rw [hf] at h1
        exact ⟨ir0, rfl, Option.some_injective _ h1.symm⟩
    have hirid : ir0.id = ing_id := (Prod.mk.injEq .. ▸ hir0e).1
    have hirfl : ir0.full_list = existing := (Prod.mk.injEq .. ▸ hir0e).2
    have hirmem : ir0 ∈ st.ingredients := List.mem_of_find?_eq_some hir0
    have hird := List.find?_some hir0
    have hirpid : ir0.productId = pid := of_decide_eq_true hird
    simp only [ingPhase, hL]
    split
    · rename_i hsame
      exact ⟨⟨hgid, hgb, hgi1, hgi2, hgi3⟩, hii,
        ⟨ir0, hir0, hirfl.trans hsame⟩, fun pid' _ => rfl, rfl, rfl, le_refl _⟩
    · rename_i hdiff
      have hkeypres : ∀ r : IngredientsRow,
          (if r.id = ing_id then { r with full_list := row.ingredient_list } else r).productId =
            r.productId := by
        intro r
        split <;> rfl
      have hidpres : ∀ r : IngredientsRow,
          (if r.id = ing_id then { r with full_list := row.ingredient_list } else r).id =
            r.id := by
        intro r
        split <;> rfl
      have hfmap : ∀ k, ((st.ingredients.map fun r => if r.id = ing_id then
            { r with full_list := row.ingredient_list } else r).find?
          fun r => r.productId = k) =
          ((st.ingredients.find? fun r => r.productId = k).map fun r =>
            if r.id = ing_id then { r with full_list := row.ingredient_list } else r) :=
        fun k => find?_map_pres _ _ (fun r => by rw [hkeypres]) st.ingredients
      have hfother : ∀ pid', pid' ≠ pid →
          ((st.ingredients.map fun r => if r.id = ing_id then
              { r with full_list := row.ingredient_list } else r).find?
            fun r => r.productId = pid') =
            (st.ingredients.find? fun r => r.productId = pid') := by
        intro pid' hpid'
        rw [hfmap]
        cases hf : st.ingredients.find? fun r => r.productId = pid' with
        | none => rfl
        | some s =>
          have hsmem := List.mem_of_find?_eq_some hf
          have hsd := List.find?_some hf
          have hskey : s.productId = pid' := of_decide_eq_true hsd
          have hsid : s.id ≠ ing_id := by
            intro hc
            have := List.inj_on_of_nodup_map hgi2 hsmem hirmem (hc.trans hirid.symm)
            exact hpid' ((this ▸ hskey).symm.trans hirpid)
          simp only [Option.map_some']
          rw [if_neg hsid]
      refine ⟨⟨hgid, hgb, ?_, ?_, ?_⟩, ?_,
        ⟨if ir0.id = ing_id then
            { ir0 with full_list := row.ingredient_list } else ir0, ?_, ?_⟩,
        hfother, ?_, ?_, ?_⟩
      · have hcomp : ((fun r : IngredientsRow => r.productId) ∘ fun r =>
            if r.id = ing_id then { r with full_list := row.ingredient_list } else r) =
            fun r : IngredientsRow => r.productId := funext fun r => hkeypres r
        rw [List.map_map, hcomp]
        exact hgi1
      · have hcomp : ((fun r : IngredientsRow => r.id) ∘ fun r =>
            if r.id = ing_id then { r with full_list := row.ingredient_list } else r) =
            fun r : IngredientsRow => r.id := funext fun r => hidpres r
        rw [List.map_map, hcomp]
        exact hgi2
      · intro r hrr
        obtain ⟨r0, hr0, hre⟩ := List.mem_map.mp hrr
        have : r.id = r0.id := by rw [← hre]; exact hidpres r0
        rw [this]
        exact hgi3 r0 hr0
      · intro k
        rw [ingIdxAssign_lookup]
        by_cases hk : k = pid
        · rw [if_pos hk, hk, hfmap, hir0]
          simp only [Option.map_some']
          rw [if_pos hirid]
          exact congrArg some
            (congrArg (fun n => (n, row.ingredient_list)) hirid.symm)
        · rw [if_neg hk, hfother k hk]
          exact hii k
      · rw [hfmap, hir0]
        simp only [Option.map_some']
      · rw [if_pos hirid]
      · first
        | trivial
        | exact le_refl _
      · first
        | trivial
        | exact le_refl _
      · first
        | trivial
        | exact le_refl _

theorem established_mono {hr uc hpc incl : Bool} {st stp : DbState} {row : CsvIngestRow}
    (hp : stp.products = st.products) (hi : stp.ingredients = st.ingredients)
    (hcw : ∀ t, HasTriple st.crosswalks t → HasTriple stp.crosswalks t)
    (h : Established hr uc hpc incl st row) : Established hr uc hpc incl stp row := by
  obtain ⟨p, hfind, hregm, ⟨ir, hif, hil⟩, hcwp⟩ := h
  refine ⟨p, ?_, hregm, ⟨ir, ?_, hil⟩, ?_⟩
  · rw [hp]
    exact hfind
  · rw [hi]
    exact hif
  · intro huc hhpc sys typ ref conf meta hm hn
    exact hcw _ (hcwp huc hhpc sys typ ref conf meta hm hn)

theorem ingestOne_run1 (hr uc hpc incl : Bool) (st : DbState) (pidx : ProductIndex)
    (iidx : IngIndex) (row : CsvIngestRow)
    (hg : GoodState st) (hio : IdxOk hr pidx st.products) (hii : IngIdxOk iidx st.ingredients) :
    GoodState (ingestOneRow hr uc hpc incl st pidx iidx row).1 ∧
    IdxOk hr (ingestOneRow hr uc hpc incl st pidx iidx row).2.1
      (ingestOneRow hr uc hpc incl st pidx iidx row).1.products ∧
    IngIdxOk (ingestOneRow hr uc hpc incl st pidx iidx row).2.2.1
      (ingestOneRow hr uc hpc incl st pidx iidx row).1.ingredients ∧
    Established hr uc hpc incl (ingestOneRow hr uc hpc incl st pidx iidx row).1 row ∧
    (∀ rowp, rowKeyOfCsv rowp ≠ rowKeyOfCsv row → Established hr uc hpc incl st rowp →
      Established hr uc hpc incl (ingestOneRow hr uc hpc incl st pidx iidx row).1 rowp) := by
  obtain ⟨hA1, hA2, ⟨p, hpf, hpid, hpreg⟩, hA4, hA5, hA6, hA7, hA8⟩ :=
    prodPhase_run1 hr st pidx row hg hio
  have hii1 : IngIdxOk iidx (prodPhase hr st pidx row).1.ingredients := by
    rw [hA5]
    exact hii
  obtain ⟨hB1, hB2, ⟨ir, hirf, hirl⟩, hB4, hB5, hB6, hB7⟩ :=
    ingPhase_run1 (prodPhase hr st pidx row).1 iidx (prodPhase hr st pidx row).2.2.1 row
      hA1 hii1
  have hcwpres : ∀ t, HasTriple (ingPhase (prodPhase hr st pidx row).1 iidx
        (prodPhase hr st pidx row).2.2.1 row).1.crosswalks t →
      HasTriple (cwPhase uc hpc incl
        (ingPhase (prodPhase hr st pidx row).1 iidx (prodPhase hr st pidx row).2.2.1 row).1
        (prodPhase hr st pidx row).2.2.1 row).1 t := by
    intro t ht
    unfold cwPhase
    split
    · unfold upsert_product_crosswalks
      exact cwLoop_triples _ _ _ _ t ht
    · exact ht
  simp only [ingestOneRow]
  refine ⟨hB1, ?_, hB2, ?_, ?_⟩
  · rw [← hB5] at hA2
    exact hA2
  · refine ⟨p, ?_, hpreg, ⟨ir, ?_, hirl⟩, ?_⟩
    · rw [hB5]
      exact hpf
    · rw [hpid]
      exact hirf
    · intro huc hhpc sys typ ref conf meta hm hn
      unfold cwPhase
      rw [if_pos ⟨huc, hhpc⟩]
      unfold upsert_product_crosswalks
      rw [hpid] at hm
      exact cwLoop_establishes _ _ _ _ (fun t ht => absurd ht (List.not_mem_nil t))
        sys typ ref conf meta hm hn
  · intro rowp hkey hE
    obtain ⟨pp, hppf, hppreg, ⟨irp, hirpf, hirpl⟩, hppcw⟩ := hE
    have hppid : pp.id ≠ (prodPhase hr st pidx row).2.2.1 := by
      refine hA8 pp (List.mem_of_find?_eq_some hppf) ?_
      have hppd := List.find?_some hppf
      have : productRowKey pp = rowKeyOfCsv rowp := of_decide_eq_true hppd
      rw [this]
      exact hkey
    refine ⟨pp, ?_, hppreg, ⟨irp, ?_, hirpl⟩, ?_⟩
    · rw [hB5, hA4 (rowKeyOfCsv rowp) hkey]
      exact hppf
    · rw [hB4 pp.id hppid, hA5]
      exact hirpf
    · intro huc hhpc sys typ ref conf meta hm hn
      refine hcwpres _ ?_
      rw [hB6, hA6]
      exact hppcw huc hhpc sys typ ref conf meta hm hn

theorem ingestLoop_run1 (hr uc hpc incl : Bool) :
    ∀ (rows : List CsvIngestRow) (st : DbState) (pidx : ProductIndex) (iidx : IngIndex),
      GoodState st → IdxOk hr pidx st.products → IngIdxOk iidx st.ingredients →
      (rows.map rowKeyOfCsv).Nodup →
      GoodState (ingestRowsLoop hr uc hpc incl st pidx iidx rows).1 ∧
      (∀ rowp, rowKeyOfCsv rowp ∉ rows.map rowKeyOfCsv →
        Established hr uc hpc incl st rowp →
        Established hr uc hpc incl (ingestRowsLoop hr uc hpc incl st pidx iidx rows).1 rowp) ∧
      (∀ row ∈ rows,
        Established hr uc hpc incl (ingestRowsLoop hr uc hpc incl st pidx iidx rows).1 row) := by
  intro rows
  induction rows with
  | nil =>
    intro st pidx iidx hg _ _ _
    exact ⟨hg, fun rowp _ hE => hE, fun row hrow => absurd hrow (List.not_mem_nil row)⟩
  | cons row rest ih =>
    intro st pidx iidx hg hio hii hnd
    simp only [List.map_cons, List.nodup_cons] at hnd
    obtain ⟨hS1, hS2, hS3, hS4, hS5⟩ := ingestOne_run1 hr uc hpc incl st pidx iidx row hg hio hii
    obtain ⟨hN1, hN2, hN3⟩ := ih (ingestOneRow hr uc hpc incl st pidx iidx row).1
      (ingestOneRow hr uc hpc incl st pidx iidx row).2.1
      (ingestOneRow hr uc hpc incl st pidx iidx row).2.2.1 hS1 hS2 hS3 hnd.2
    simp only [ingestRowsLoop]
    refine ⟨hN1, ?_, ?_⟩
    · intro rowp hnm hE
      simp only [List.map_cons, List.mem_cons] at hnm
      push_neg at hnm
      exact hN2 rowp (by simpa using hnm.2) (hS5 rowp hnm.1 hE)
    · intro r hrm
      rcases List.mem_cons.mp hrm with rfl | hrm2
      · exact hN2 r hnd.1 hS4
      · exact hN3 r hrm2

theorem ingestOne_run2 (hr uc hpc incl : Bool) (st : DbState) (pidx : ProductIndex)
    (iidx : IngIndex) (row : CsvIngestRow)
    (hio : IdxOk hr pidx st.products) (hii : IngIdxOk iidx st.ingredients)
    (hE : Established hr uc hpc incl st row) :
    (ingestOneRow hr uc hpc incl st pidx iidx row).1.products = st.products ∧
    (ingestOneRow hr uc hpc incl st pidx iidx row).1.ingredients = st.ingredients ∧
    (ingestOneRow hr uc hpc incl st pidx iidx row).1.nextId = st.nextId ∧
    (ingestOneRow hr uc hpc incl st pidx iidx row).1.crosswalks.length =
      st.crosswalks.length ∧
    (∀ t, HasTriple st.crosswalks t →
      HasTriple (ingestOneRow hr uc hpc incl st pidx iidx row).1.crosswalks t) ∧
    (ingestOneRow hr uc hpc incl st pidx iidx row).2.1 = pidx ∧
    (ingestOneRow hr uc hpc incl st pidx iidx row).2.2.1 = iidx ∧
    (ingestOneRow hr uc hpc incl st pidx iidx row).2.2.2.productInserted = false ∧
    (ingestOneRow hr uc hpc incl st pidx iidx row).2.2.2.regionsUpdated = false ∧
    (ingestOneRow hr uc hpc incl st pidx iidx row).2.2.2.ingredient = IngOutcome.unchanged := by
  obtain ⟨p, hpf, hpreg, ⟨ir, hirf, hirl⟩, hpcw⟩ := hE
  have hpfk : (st.products.find?
      fun q => productRowKey q = identity_key row.brand row.name) = some p := hpf
  have h1 := hio.1 (identity_key row.brand row.name)
  rw [hpfk] at h1
  cases hL : idxLookup pidx (identity_key row.brand row.name) with
  | none =>
    rw [hL] at h1
    exact absurd h1 (by simp)
  | some pr =>
    obtain ⟨pid0, known⟩ := pr
    rw [hL] at h1
    have hpid0 : pid0 = p.id := by
      simp only [Option.map_some'] at h1
      exact Option.some_injective _ h1
    have hcond : ¬(hr = true ∧ row.market ≠ "" ∧ ¬(known.contains row.market = true)) := by
      rintro ⟨hhr, hmkt, hnc⟩
      have h2 := hio.2 hhr (identity_key row.brand row.name)
      rw [hpfk, hL] at h2
      have hkn : known = p.regions :=
        (Prod.mk.injEq .. ▸ Option.some_injective _ h2).2
      exact hnc (hkn ▸ List.elem_iff.mpr (hpreg hhr hmkt))
    have ha : prodPhase hr st pidx row = (st, pidx, pid0, false, false) := by
      simp only [prodPhase, hL]
      rw [if_neg hcond]
    have h3 := hii pid0
    have hirfk : (st.ingredients.find? fun r => r.productId = pid0) = some ir := by
      rw [hpid0]
      exact hirf
    rw [hirfk] at h3
    have hb : ingPhase st iidx pid0 row = (st, iidx, IngOutcome.unchanged) := by
      simp only [ingPhase, h3, Option.map_some']
      rw [if_pos hirl]
    have hcw : (cwPhase uc hpc incl st pid0 row).1.length = st.crosswalks.length ∧
        ∀ t, HasTriple st.crosswalks t → HasTriple (cwPhase uc hpc incl st pid0 row).1 t := by
      unfold cwPhase
      split
      · rename_i hc
        unfold upsert_product_crosswalks
        constructor
        · refine cwLoop_len pid0 _ _ _ ?_
          intro sys typ ref conf meta hm hn
          rw [hpid0] at hm
          exact hpcw hc.1 hc.2 sys typ ref conf meta hm hn
        · intro t ht
          exact cwLoop_triples _ _ _ _ t ht
      · exact ⟨rfl, fun t ht => ht⟩
    simp only [ingestOneRow, ha, hb]
    exact ⟨True.intro, True.intro, True.intro, hcw.1, hcw.2, True.intro, True.intro,
      True.intro, True.intro, True.intro⟩

theorem ingestLoop_run2 (hr uc hpc incl : Bool) :
    ∀ (rows : List CsvIngestRow) (st : DbState) (pidx : ProductIndex) (iidx : IngIndex),
      IdxOk hr pidx st.products → IngIdxOk iidx st.ingredients →
      (∀ r ∈ rows, Established hr uc hpc incl st r) →
      (ingestRowsLoop hr uc hpc incl st pidx iidx rows).1.products = st.products ∧
      (ingestRowsLoop hr uc hpc incl st pidx iidx rows).1.ingredients = st.ingredients ∧
      (ingestRowsLoop hr uc hpc incl st pidx iidx rows).1.crosswalks.length =
        st.crosswalks.length ∧
      (∀ o ∈ (ingestRowsLoop hr uc hpc incl st pidx iidx rows).2.2.2,
        o.productInserted = false ∧ o.regionsUpdated = false ∧
        o.ingredient = IngOutcome.unchanged) := by
  intro rows
  induction rows with
  | nil =>
    intro st pidx iidx _ _ _
    exact ⟨rfl, rfl, rfl, fun o ho => absurd ho (List.not_mem_nil o)⟩
  | cons row rest ih =>
    intro st pidx iidx hio hii hE
    obtain ⟨hs1, hs2, hs3, hs4, hs5, hs6, hs7, hs8, hs9, hs10⟩ :=
      ingestOne_run2 hr uc hpc incl st pidx iidx row hio hii (hE row (List.mem_cons_self _ _))
    have hio2 : IdxOk hr (ingestOneRow hr uc hpc incl st pidx iidx row).2.1
        (ingestOneRow hr uc hpc incl st pidx iidx row).1.products := by
      rw [hs6, hs1]
      exact hio
    have hii2 : IngIdxOk (ingestOneRow hr uc hpc incl st pidx iidx row).2.2.1
        (ingestOneRow hr uc hpc incl st pidx iidx row).1.ingredients := by
      rw [hs7, hs2]
      exact hii
    have hE2 : ∀ r ∈ rest,
        Established hr uc hpc incl (ingestOneRow hr uc hpc incl st pidx iidx row).1 r :=
      fun r hrm => established_mono hs1 hs2 hs5 (hE r (List.mem_cons_of_mem _ hrm))
    obtain ⟨hN1, hN2, hN3, hN4⟩ := ih (ingestOneRow hr uc hpc incl st pidx iidx row).1
      (ingestOneRow hr uc hpc incl st pidx iidx row).2.1
      (ingestOneRow hr uc hpc incl st pidx iidx row).2.2.1 hio2 hii2 hE2
    simp only [ingestRowsLoop]
    refine ⟨hN1.trans hs1, hN2.trans hs2, hN3.trans hs4, ?_⟩
    intro o ho
    rcases List.mem_cons.mp ho with rfl | ho2
    · exact ⟨hs8, hs9, hs10⟩
    · exact hN4 o ho2

/-- C4: Idempotence of ingestion, amended to reviewed input sets whose rows
carry pairwise-distinct identity keys.  Starting from any sane store,
re-running `ingest_rows` over the unchanged input set, from the state the
first run produced, leaves the products and ingredients relations unchanged,
adds no crosswalk row, and reports every record of the second run as
product-not-inserted, regions-untouched and ingredient-unchanged. -/
theorem C4_ingest_idempotence (hr uc hpc incl : Bool) (st0 : DbState)
    (rows : List CsvIngestRow) (hg : GoodState st0)
    (hkeys : (rows.map rowKeyOfCsv).Nodup) :
    (ingest_rows hr uc hpc incl (ingest_rows hr uc hpc incl st0 rows).1 rows).1.products =
      (ingest_rows hr uc hpc incl st0 rows).1.products ∧
    (ingest_rows hr uc hpc incl (ingest_rows hr uc hpc incl st0 rows).1 rows).1.ingredients =
      (ingest_rows hr uc hpc incl st0 rows).1.ingredients ∧
    (ingest_rows hr uc hpc incl
        (ingest_rows hr uc hpc incl st0 rows).1 rows).1.crosswalks.length =
      (ingest_rows hr uc hpc incl st0 rows).1.crosswalks.length ∧
    ∀ o ∈ (ingest_rows hr uc hpc incl (ingest_rows hr uc hpc incl st0 rows).1 rows).2,
      o.productInserted = false ∧ o.regionsUpdated = false ∧
      o.ingredient = IngOutcome.unchanged := by
  obtain ⟨hG1, _, hR1⟩ := ingestLoop_run1 hr uc hpc incl rows st0
    (load_product_index st0.products) (load_ingredient_index st0.ingredients)
    hg (load_product_index_ok hr st0.products)
    (load_ingredient_index_ok st0.ingredients hg.2.2.1) hkeys
  obtain ⟨h1, h2, h3, h4⟩ := ingestLoop_run2 hr uc hpc incl rows
    (ingestRowsLoop hr uc hpc incl st0 (load_product_index st0.products)
      (load_ingredient_index st0.ingredients) rows).1
    (load_product_index (ingestRowsLoop hr uc hpc incl st0 (load_product_index st0.products)
      (load_ingredient_index st0.ingredients) rows).1.products)
    (load_ingredient_index (ingestRowsLoop hr uc hpc incl st0 (load_product_index st0.products)
      (load_ingredient_index st0.ingredients) rows).1.ingredients)
    (load_product_index_ok hr _)
    (load_ingredient_index_ok _ hG1.2.2.1) hR1
  simp only [ingest_rows]
  exact ⟨h1, h2, h3, h4⟩

/-- Counterexample to C4 as stated: for an input set that is unchanged
between the two runs but contains two reviewed rows with the same identity
key (same brand and name) and different ingredient lists, the two rows
overwrite each other's stored list, so the second run reports `updated` for
both records instead of skipped/unchanged. -/
theorem C4_ingest_claim_counterexample :
    ¬ (∀ o ∈ (ingest_rows false false false false
        (ingest_rows false false false false (⟨[], [], [], 0⟩ : DbState)
          [⟨0, "", "a", "b", "", "", "", "", "", "", "", ["x"], "", "", 0⟩,
           ⟨1, "", "a", "b", "", "", "", "", "", "", "", ["y"], "", "", 0⟩]).1
        [⟨0, "", "a", "b", "", "", "", "", "", "", "", ["x"], "", "", 0⟩,
         ⟨1, "", "a", "b", "", "", "", "", "", "", "", ["y"], "", "", 0⟩]).2,
      o.ingredient = IngOutcome.unchanged) := by
  decide

/-- Witness for C4: a store starting empty and a single short reviewed row
satisfy both hypotheses, and the amended idempotence conclusion holds for
the second run over the unchanged one-row input set. -/
theorem C4_ingest_idempotence_witness :
    GoodState (⟨[], [], [], 0⟩ : DbState) ∧
    (([(⟨0, "c7", "Acme", "Gel", "US", "", "", "", "", "", "aqua",
        ["aqua"], "ok", "approved", 90⟩ : CsvIngestRow)].map rowKeyOfCsv).Nodup) ∧
    (∀ o ∈ (ingest_rows true true true true
        (ingest_rows true true true true (⟨[], [], [], 0⟩ : DbState)
          [⟨0, "c7", "Acme", "Gel", "US", "", "", "", "", "", "aqua",
            ["aqua"], "ok", "approved", 90⟩]).1
        [⟨0, "c7", "Acme", "Gel", "US", "", "", "", "", "", "aqua",
          ["aqua"], "ok", "approved", 90⟩]).2,
      o.productInserted = false ∧ o.regionsUpdated = false ∧
      o.ingredient = IngOutcome.unchanged) :=
  ⟨by simp [GoodState], by simp,
   (C4_ingest_idempotence true true true true (⟨[], [], [], 0⟩ : DbState)
      [⟨0, "c7", "Acme", "Gel", "US", "", "", "", "", "", "aqua",
        ["aqua"], "ok", "approved", 90⟩]
      (by simp [GoodState]) (by simp)).2.2.2⟩
